import Mathlib

/-!
Verification of the m7_bottomfinder signal pipeline.

This file gives a shallow embedding of the core components of the
repository (data merge and gap repair, the divergence detector, the alert
decision engine, the rate limited augmentation gate and the backtest
simulator) and proves the stated behavioural properties against those
definitions.

Modelling conventions:
* timestamps are rational numbers measured in minutes (normalisation to
  UTC is the identity on this representation, since a normalised instant
  is just a point on the time line);
* prices and volumes are rational numbers;
* Python dictionaries keyed by timestamp are modelled as association
  lists with an upsert operation that preserves insertion order, exactly
  mirroring dict update semantics;
* Python `sorted` is modelled by insertion sort with the
  less-or-equal comparison on the sort key (all sorted collections in
  the pipeline carry pairwise distinct keys, so any stable sort agrees
  with any correct sort);
* fallible operations return `Except String` or `Option` values.
-/

/-- One OHLCV bar, `data_layer.Bar`.  The timestamp is in minutes on the
UTC time line. -/
structure Bar where
  timestamp : ℚ
  open_ : ℚ
  high : ℚ
  low : ℚ
  close : ℚ
  volume : ℚ
deriving DecidableEq, Repr

/-- Comparison used by every `sorted(..., key=lambda x: x.timestamp)`
call of the data layer. -/
def barLE (a b : Bar) : Prop := a.timestamp ≤ b.timestamp

instance : DecidableRel barLE := fun _ _ => inferInstanceAs (Decidable (_ ≤ _))

instance : IsTotal Bar barLE := ⟨fun a b => le_total a.timestamp b.timestamp⟩

instance : IsTrans Bar barLE := ⟨fun _ _ _ h h' => le_trans h h'⟩

/-- Strict version of `barLE`;`merge_incremental` output is strictly
ascending in this order. -/
def barLT (a b : Bar) : Prop := a.timestamp < b.timestamp

/-- Python `sorted(bars, key=lambda x: x.timestamp)`. -/
def sortBars (l : List Bar) : List Bar := List.insertionSort barLE l

/-- Insertion (or overwrite) of one bar into a timestamp-keyed
association map, mirroring `merged[normalized.timestamp] = normalized`
on a Python dict: an existing key keeps its position and gets the new
value, a fresh key is appended at the end. -/
def upsert (m : List Bar) (b : Bar) : List Bar :=
  if m.any (fun x => decide (x.timestamp = b.timestamp)) then
    m.map (fun x => if x.timestamp = b.timestamp then b else x)
  else m ++ [b]

/-- The dict built by `DataLayer.merge_incremental`: all bars of
`existing`, then all bars of `incoming`, inserted in order. -/
def mergeMap (existing incoming : List Bar) : List Bar :=
  (existing ++ incoming).foldl upsert []

/-- `DataLayer.merge_incremental`: dict keyed by normalised timestamp,
incoming overwrites existing, result listed in ascending key order. -/
def merge_incremental (existing incoming : List Bar) : List Bar :=
  sortBars (mergeMap existing incoming)

/-- First bar of `m` with the given timestamp (Python dict lookup once
keys are unique). -/
def valueAt (m : List Bar) (t : ℚ) : Option Bar :=
  m.find? (fun x => decide (x.timestamp = t))

/-- Last bar of `l` carrying timestamp `t`: the value a Python dict
holds at key `t` after inserting all of `l` in order. -/
def lastWith (l : List Bar) (t : ℚ) : Option Bar :=
  l.reverse.find? (fun x => decide (x.timestamp = t))

/-- All timestamps of a bar list are pairwise distinct. -/
def keysNodup (l : List Bar) : Prop := (l.map Bar.timestamp).Nodup

/-- The synthetic bars `DataLayer.fill_missing` inserts between two
consecutive real bars `prev` and `current`:
`gap_minutes = int((current.timestamp - prev.timestamp).total_seconds() // 60)`;
when `interval < gap_minutes ≤ max_gap` it emits
`missing_steps = gap_minutes // interval - 1` flat carry-forward bars,
evenly spaced, with OHLC pinned at `prev.close` and zero volume. -/
def fillerBars (interval max_gap : ℤ) (prev current : Bar) : List Bar :=
  let gap : ℤ := ⌊current.timestamp - prev.timestamp⌋
  if gap > interval ∧ gap ≤ max_gap then
    let missing : ℕ := (gap.fdiv interval - 1).toNat
    (List.range missing).map (fun k =>
      { timestamp := prev.timestamp +
          (current.timestamp - prev.timestamp) * ((k + 1 : ℕ) / (missing + 1 : ℚ)),
        open_ := prev.close, high := prev.close, low := prev.close,
        close := prev.close, volume := 0 })
  else []

/-- The main loop of `DataLayer.fill_missing`: walk the ordered bars,
emitting the gap fillers before each real bar.  `prev` is always the
previous real bar (the loop re-reads `result[-1]` only after having
appended the current real bar). -/
def fillWalk (interval max_gap : ℤ) : Bar → List Bar → List Bar
  | _, [] => []
  | prev, c :: rest =>
      fillerBars interval max_gap prev c ++ c :: fillWalk interval max_gap c rest

/-- `DataLayer.fill_missing(bars, expected_interval_minutes, max_gap_minutes)`. -/
def fill_missing (bars : List Bar) (interval max_gap : ℤ) : List Bar :=
  match sortBars bars with
  | [] => []
  | [b] => [b]
  | b :: rest => sortBars (b :: fillWalk interval max_gap b rest)

/-- `DataLayer.update_cache` restricted to the stored state of one
(symbol, timeframe) key: merge the stored history with the incoming
bars, repair gaps, and save (the save normalises and sorts). -/
def update_store (stored incoming : List Bar) (interval max_gap : ℤ) : List Bar :=
  sortBars (fill_missing (merge_incremental stored incoming) interval max_gap)

/-- `DataLayer.timeframe_to_minutes`, for the suffix checks only: the
numeric prefix is passed in already parsed. -/
def timeframe_to_minutes (n : ℤ) (suffix : String) : Except String ℤ :=
  if suffix = "m" then .ok n
  else if suffix = "h" then .ok (n * 60)
  else if suffix = "d" then .ok (n * 60 * 24)
  else .error "Unsupported timeframe"

/-- Adjacent pairs of a list (each element with its successor). -/
def adjPairs (l : List Bar) : List (Bar × Bar) := l.zip l.tail

/-- Python dict read with default absence: `m.get(k)`. -/
def alGet {α β : Type} [DecidableEq α] (m : List (α × β)) (k : α) : Option β :=
  (m.find? (fun p => decide (p.1 = k))).map Prod.snd

/-- Python dict write `m[k] = v`: an existing key keeps its position and
is overwritten, a fresh key is appended. -/
def alSet {α β : Type} [DecidableEq α] (m : List (α × β)) (k : α) (v : β) : List (α × β) :=
  if m.any (fun p => decide (p.1 = k)) then
    m.map (fun p => if p.1 = k then (k, v) else p)
  else m ++ [(k, v)]

/-! ### Indicator engine data model (`indicator_engine.py`), as consumed
by the alert engine, the augmentation gate and the backtest simulator. -/

/-- `SignalDirection`. -/
inductive SignalDirection where
  | bullish
  | bearish
  | neutral
deriving DecidableEq, Repr

/-- `IndicatorResult`.  The `raw_values` diagnostic mapping is not
modelled: no verified component reads it. -/
structure IndicatorResult where
  indicator : String
  signal : SignalDirection
  score : ℤ
  evidence : String
  timestamp : ℚ
deriving DecidableEq, Repr

/-- `SignalSummary`. -/
structure SignalSummary where
  total_score : ℤ
  strongest_signal : SignalDirection
  bullish_count : ℕ
  bearish_count : ℕ
  neutral_count : ℕ
  should_alert : Bool
  should_call_ai : Bool
  s_tier_hits : ℕ
deriving DecidableEq, Repr

/-! ### Alert decision engine (`alert_engine.py`). -/

/-- `AlertAction`. -/
inductive AlertAction where
  | send
  | send_strengthened
  | suppress_no_signal
  | suppress_cooldown
  | suppress_duplicate
deriving DecidableEq, Repr

/-- `AlertDecision`. -/
structure AlertDecision where
  action : AlertAction
  should_send : Bool
  reason : String
  symbol : String
  direction : SignalDirection
  score : ℤ
  cooldown_remaining_minutes : Option ℤ
deriving DecidableEq, Repr

/-- `AlertRecord`. -/
structure AlertRecord where
  symbol : String
  direction : SignalDirection
  score : ℤ
  timestamp : ℚ
  signature : String
deriving DecidableEq, Repr

/-- Configuration of `AlertEngine` (cooldown window and strengthening
delta). -/
structure AlertEngine where
  cooldown_minutes : ℤ
  strengthened_delta : ℤ
deriving DecidableEq, Repr

/-- The mutable `AlertEngine._last` map, keyed by (symbol, direction). -/
abbrev AlertState := List ((String × SignalDirection) × AlertRecord)

/-- `AlertEngine._signature`: sorted names of the indicators that fired
positively in the winning direction, joined with a bar. -/
def alertSignature (results : List IndicatorResult) (direction : SignalDirection) : String :=
  String.intercalate "|"
    (List.insertionSort (· ≤ ·)
      ((results.filter (fun r => decide (r.signal = direction ∧ 0 < r.score))).map
        (·.indicator)))

/-- `AlertEngine.decide`, with the `_last` map passed and returned
explicitly.  `now` is the already-normalised evaluation instant in
minutes. -/
def AlertEngine.decide (e : AlertEngine) (st : AlertState) (symbol : String)
    (summary : SignalSummary) (results : List IndicatorResult) (now : ℚ) :
    AlertDecision × AlertState :=
  let ts := now
  let direction := summary.strongest_signal
  if summary.should_alert = false ∨ direction = SignalDirection.neutral then
    (⟨.suppress_no_signal, false, "threshold/direction unmet", symbol, direction,
       summary.total_score, none⟩, st)
  else
    let key := (symbol, direction)
    let sig := alertSignature results direction
    match alGet st key with
    | some prev =>
        let elapsed := ts - prev.timestamp
        if elapsed < (e.cooldown_minutes : ℚ) then
          if prev.score + e.strengthened_delta ≤ summary.total_score then
            (⟨.send_strengthened, true, "strengthened in cooldown", symbol, direction,
               summary.total_score, some 0⟩,
             alSet st key ⟨symbol, direction, summary.total_score, ts, sig⟩)
          else
            (⟨.suppress_cooldown, false, "cooldown", symbol, direction, summary.total_score,
               some (max ⌊(e.cooldown_minutes : ℚ) - elapsed⌋ 0)⟩, st)
        else if prev.signature = sig ∧ prev.score = summary.total_score then
          (⟨.suppress_duplicate, false, "duplicate", symbol, direction,
             summary.total_score, none⟩, st)
        else
          (⟨.send, true, "accepted", symbol, direction, summary.total_score, none⟩,
           alSet st key ⟨symbol, direction, summary.total_score, ts, sig⟩)
    | none =>
        (⟨.send, true, "accepted", symbol, direction, summary.total_score, none⟩,
         alSet st key ⟨symbol, direction, summary.total_score, ts, sig⟩)

/-! ### Augmentation gate (`ai_layer.py`). -/

/-- The parsed response object of the external interpreter
(`json.loads(provider.generate(prompt))` with the fields the gate
reads). -/
structure AIPayload where
  regime : String
  confidence : ℤ
  summary : String
  risks : List String
deriving DecidableEq, Repr

/-- `AIInterpretation`. -/
structure AIInterpretation where
  regime : String
  confidence : ℤ
  summary : String
  risks : List String
  provider : String
deriving DecidableEq, Repr

/-- `AIInvocation`. -/
structure AIInvocation where
  called : Bool
  reason : String
  result : Option AIInterpretation
deriving DecidableEq, Repr

/-- `AIUsageLimiter` configuration (the two daily caps). -/
structure AIUsageLimiter where
  per_symbol : ℤ
  global_daily : ℤ
deriving DecidableEq, Repr

/-- The mutable counters of `AIUsageLimiter`: `_sym` keyed by
(symbol, day) and `_global` keyed by day.  Days are integers
(calendar day index of the normalised instant). -/
structure LimiterState where
  sym : List ((String × ℤ) × ℤ)
  glob : List (ℤ × ℤ)
deriving DecidableEq, Repr

/-- `normalize_timestamp(now).date()`: the calendar day of an instant
measured in minutes. -/
def dayOf (now : ℚ) : ℤ := ⌊now / (24 * 60)⌋

/-- `AIUsageLimiter.allow`. -/
def AIUsageLimiter.allow (lim : AIUsageLimiter) (st : LimiterState) (symbol : String)
    (now : ℚ) : Bool × String :=
  let day := dayOf now
  if lim.per_symbol ≤ (alGet st.sym (symbol, day)).getD 0 then (false, "symbol daily limit")
  else if lim.global_daily ≤ (alGet st.glob day).getD 0 then (false, "global daily limit")
  else (true, "ok")

/-- `AIUsageLimiter.consume`: one unit on both counters. -/
def AIUsageLimiter.consume (st : LimiterState) (symbol : String) (now : ℚ) : LimiterState :=
  let day := dayOf now
  { sym := alSet st.sym (symbol, day) ((alGet st.sym (symbol, day)).getD 0 + 1),
    glob := alSet st.glob day ((alGet st.glob day).getD 0 + 1) }

/-- The structured prompt of `AIInterpreter._build_prompt` (the JSON
serialisation is a bijective rendering of these fields). -/
structure AIPrompt where
  symbol : String
  timeframe : String
  score : ℤ
  direction : SignalDirection
  results : List IndicatorResult
deriving DecidableEq, Repr

/-- `AIInterpreter._build_prompt`. -/
def build_prompt (symbol timeframe : String) (summary : SignalSummary)
    (results : List IndicatorResult) : AIPrompt :=
  ⟨symbol, timeframe, summary.total_score, summary.strongest_signal, results⟩

/-- `AIInterpreter.maybe_call`.  The external provider together with
the response parser is an oracle from prompts to parsed payloads; a
raised error is an `Except.error`. -/
def maybe_call (provider : AIPrompt → AIPayload) (providerName : String)
    (lim : AIUsageLimiter) (st : LimiterState) (symbol timeframe : String)
    (summary : SignalSummary) (results : List IndicatorResult)
    (decision : AlertDecision) (now : ℚ) : Except String AIInvocation × LimiterState :=
  let ts := now
  if decision.should_send = false then (.ok ⟨false, "alert suppressed", none⟩, st)
  else if summary.should_call_ai = false then (.ok ⟨false, "ai threshold unmet", none⟩, st)
  else
    let ar := lim.allow st symbol ts
    if ar.1 = false then (.ok ⟨false, ar.2, none⟩, st)
    else
      let payload := provider (build_prompt symbol timeframe summary results)
      let conf := payload.confidence
      if conf < 0 ∨ conf > 100 then (.error "confidence out of range", st)
      else
        (.ok ⟨true, "ok",
               some ⟨payload.regime, conf, payload.summary, payload.risks.take 3,
                     providerName⟩⟩,
         AIUsageLimiter.consume st symbol ts)

/-! ### Divergence detector (`divergence.py`). -/

/-- `DivergenceType`. -/
inductive DivergenceType where
  | bullish
  | bearish
  | none
deriving DecidableEq, Repr

/-- `Pivot`. -/
structure Pivot where
  index : ℕ
  value : ℚ
  timestamp : Option ℚ
deriving DecidableEq, Repr

/-- `DivergenceSignal`. -/
structure DivergenceSignal where
  found : Bool
  kind : DivergenceType
  evidence : String
  price : Option (Pivot × Pivot)
  indicator : Option (Pivot × Pivot)
deriving DecidableEq, Repr

/-- Python `min` over a list (the callers only apply it to nonempty
slices). -/
def pythonMin (l : List ℚ) : ℚ :=
  match l with
  | [] => 0
  | h :: t => t.foldl min h

/-- Python `max` over a list. -/
def pythonMax (l : List ℚ) : ℚ :=
  match l with
  | [] => 0
  | h :: t => t.foldl max h

/-- `DivergenceDetector._find_pivots`: indices `i` in
`range(w, len(values) - w)` strictly below (mode low) or above
(mode high) all `w` neighbours on each side. -/
def find_pivots (w : ℕ) (values : List ℚ) (mode : String) : List ℕ :=
  (List.range' w (values.length - w - w)).filter (fun i =>
    let c := values.getD i 0
    let left := (values.drop (i - w)).take w
    let right := (values.drop (i + 1)).take w
    decide ((mode = "low" ∧ c < pythonMin left ∧ c < pythonMin right) ∨
      (mode = "high" ∧ pythonMax left < c ∧ pythonMax right < c)))

/-- `DivergenceDetector._pivot`. -/
def mkPivot (values : List ℚ) (timestamps : Option (List ℚ)) (idx : ℕ) : Pivot :=
  ⟨idx, values.getD idx 0, timestamps.map (fun ts => ts.getD idx 0)⟩

/-- `DivergenceDetector.detect` for a detector with pivot window `w`. -/
def detect (w : ℕ) (prices indicators : List ℚ) (timestamps : Option (List ℚ)) :
    Except String DivergenceSignal :=
  if prices.length ≠ indicators.length then .error "length mismatch"
  else if prices.length < 2 * w + 3 then
    .ok ⟨false, DivergenceType.none, "not enough data", Option.none, Option.none⟩
  else
    let bull : Option DivergenceSignal :=
      match (find_pivots w prices "low").reverse with
      | p2 :: p1 :: _ =>
          if prices.getD p2 0 < prices.getD p1 0 ∧
              indicators.getD p1 0 < indicators.getD p2 0 then
            some ⟨true, DivergenceType.bullish, "price LL + indicator HL",
              some (mkPivot prices timestamps p1, mkPivot prices timestamps p2),
              some (mkPivot indicators timestamps p1, mkPivot indicators timestamps p2)⟩
          else Option.none
      | _ => Option.none
    match bull with
    | some s => .ok s
    | Option.none =>
        match (find_pivots w prices "high").reverse with
        | p2 :: p1 :: _ =>
            if prices.getD p1 0 < prices.getD p2 0 ∧
                indicators.getD p2 0 < indicators.getD p1 0 then
              .ok ⟨true, DivergenceType.bearish, "price HH + indicator LH",
                some (mkPivot prices timestamps p1, mkPivot prices timestamps p2),
                some (mkPivot indicators timestamps p1, mkPivot indicators timestamps p2)⟩
            else .ok ⟨false, DivergenceType.none, "no divergence", Option.none, Option.none⟩
        | _ => .ok ⟨false, DivergenceType.none, "no divergence", Option.none, Option.none⟩

/-! ### Backtest simulator (`backtest.py`). -/

/-- `BacktestSignal`. -/
structure BacktestSignal where
  timestamp : ℚ
  index : ℕ
  score : ℤ
  direction : SignalDirection
  indicators : List String
deriving DecidableEq, Repr

/-- `BacktestTradeResult`. -/
structure BacktestTradeResult where
  signal : BacktestSignal
  entry_price : ℚ
  max_drawdown_pct : ℚ
  rebound_pct : ℚ
  hit_precision_target : Bool
  time_to_recovery_bars : Option ℕ
deriving DecidableEq, Repr

/-- `BacktestReport`. -/
structure BacktestReport where
  signal_count : ℕ
  precision : ℚ
  avg_rebound_pct : ℚ
  max_drawdown_pct : ℚ
  avg_signal_duration_bars : ℚ
  signal_to_noise_ratio : ℚ
  avg_time_to_recovery_bars : Option ℚ
deriving DecidableEq, Repr

/-- Configuration of `BacktestSimulator`. -/
structure BacktestConfig where
  cooldown_bars : ℕ
  strengthen_delta : ℤ
  precision_target_pct : ℚ
  lookahead_bars : ℕ
deriving DecidableEq, Repr

/-- `BacktestSimulator.evaluate_signal`: forward looking excursion
metrics for one signal.  An index outside the bar list (impossible for
generated signals, an exception in Python) is `Option.none`. -/
def evaluate_signal (cfg : BacktestConfig) (signal : BacktestSignal) (bars : List Bar) :
    Option BacktestTradeResult :=
  match bars[signal.index]? with
  | Option.none => Option.none
  | some sbar =>
      let entry := sbar.close
      let stop := min bars.length (signal.index + cfg.lookahead_bars + 1)
      let future := (bars.take stop).drop (signal.index + 1)
      if future.isEmpty then some ⟨signal, entry, 0, 0, false, Option.none⟩
      else
        let min_low := pythonMin (future.map Bar.low)
        let max_high := pythonMax (future.map Bar.high)
        let mdd := if entry = 0 then 0 else (min_low - entry) / entry * 100
        let rebound := if entry = 0 then 0 else (max_high - entry) / entry * 100
        let hit := decide (cfg.precision_target_pct ≤ rebound)
        let ttr := (future.findIdx? (fun b => decide (entry ≤ b.high))).map (· + 1)
        some ⟨signal, entry, mdd, rebound, hit, ttr⟩

/-- `BacktestSimulator._build_report`.  The duration proxy uses Python
truthiness (`r.time_to_recovery_bars or lookahead`): a missing or zero
recovery count falls back to the full lookahead. -/
def build_report (cfg : BacktestConfig) (results : List BacktestTradeResult) :
    BacktestReport :=
  match results with
  | [] => ⟨0, 0, 0, 0, 0, 0, Option.none⟩
  | _ :: _ =>
      let n : ℚ := results.length
      let hit_count := (results.filter (fun r => r.hit_precision_target)).length
      let precision : ℚ := (hit_count : ℚ) / n
      let avg_rebound := (results.map (·.rebound_pct)).sum / n
      let worst := pythonMin (results.map (·.max_drawdown_pct))
      let recovery := results.filterMap (·.time_to_recovery_bars)
      let avg_ttr : Option ℚ :=
        if recovery.isEmpty then Option.none
        else some ((recovery.map (fun k => (k : ℚ))).sum / (recovery.length : ℚ))
      let durations := results.map (fun r =>
        match r.time_to_recovery_bars with
        | some k => if k = 0 then (cfg.lookahead_bars : ℚ) else (k : ℚ)
        | Option.none => (cfg.lookahead_bars : ℚ))
      let avg_duration := durations.sum / n
      let misses := results.length - hit_count
      let snr : ℚ := if 0 < misses then (hit_count : ℚ) / (misses : ℚ) else (hit_count : ℚ)
      ⟨results.length, precision, avg_rebound, worst, avg_duration, snr, avg_ttr⟩

/-- Lines 58 to 61 of `BacktestSimulator.run`: evaluate every generated
signal and aggregate the report.  The signal generation stage is passed
in as its output list. -/
def backtest_run (cfg : BacktestConfig) (signals : List BacktestSignal) (bars : List Bar) :
    Option (List BacktestSignal × List BacktestTradeResult × BacktestReport) :=
  match signals.mapM (fun s => evaluate_signal cfg s bars) with
  | Option.none => Option.none
  | some results => some (signals, results, build_report cfg results)

/-! ## Sorting infrastructure -/

theorem sortBars_perm (l : List Bar) : (sortBars l).Perm l := List.perm_insertionSort _ _

theorem sortBars_sorted (l : List Bar) : List.Sorted barLE (sortBars l) :=
  List.sorted_insertionSort _ _

theorem sortBars_eq_of_sorted {l : List Bar} (h : List.Sorted barLE l) : sortBars l = l :=
  h.insertionSort_eq

theorem sorted_of_pairwise_lt {l : List Bar} (h : List.Pairwise barLT l) :
    List.Sorted barLE l :=
  h.imp (fun hab => le_of_lt hab)

theorem keysNodup_of_pairwise_lt {l : List Bar} (h : List.Pairwise barLT l) : keysNodup l := by
  unfold keysNodup
  rw [List.Nodup, List.pairwise_map]
  exact h.imp (fun hab => ne_of_lt hab)

theorem pairwise_lt_of_sorted_nodup {l : List Bar} (hs : List.Sorted barLE l)
    (hn : keysNodup l) : List.Pairwise barLT l := by
  unfold keysNodup at hn
  rw [List.Nodup, List.pairwise_map] at hn
  exact (hs.and hn).imp (fun hab => lt_of_le_of_ne hab.1 hab.2)

theorem keysNodup_of_perm {l l' : List Bar} (hp : l.Perm l') (h : keysNodup l) : keysNodup l' :=
  ((hp.map Bar.timestamp).nodup_iff).mp h

theorem sortBars_pairwise_lt {l : List Bar} (h : keysNodup l) :
    List.Pairwise barLT (sortBars l) :=
  pairwise_lt_of_sorted_nodup (sortBars_sorted l) (keysNodup_of_perm (sortBars_perm l).symm h)

theorem eq_of_perm_of_pairwise_lt {l₁ l₂ : List Bar} (hp : l₁.Perm l₂)
    (h₁ : List.Pairwise barLT l₁) (h₂ : List.Pairwise barLT l₂) : l₁ = l₂ := by
  induction l₁ generalizing l₂ with
  | nil => exact (hp.symm.eq_nil).symm
  | cons a t₁ ih =>
      cases l₂ with
      | nil =>
          have := hp.eq_nil
          simp at this
      | cons b t₂ =>
          have hab : a = b := by
            have ha : a ∈ b :: t₂ := hp.mem_iff.mp (List.mem_cons_self a t₁)
            have hb : b ∈ a :: t₁ := hp.symm.mem_iff.mp (List.mem_cons_self b t₂)
            rcases List.mem_cons.mp ha with h | h
            · exact h
            · rcases List.mem_cons.mp hb with h' | h'
              · exact h'.symm
              · have hba : barLT b a := (List.pairwise_cons.mp h₂).1 a h
                have hab' : barLT a b := (List.pairwise_cons.mp h₁).1 b h'
                exact absurd
                  (lt_trans (show a.timestamp < b.timestamp from hab')
                    (show b.timestamp < a.timestamp from hba)) (lt_irrefl _)
          subst hab
          rw [ih hp.cons_inv (List.pairwise_cons.mp h₁).2 (List.pairwise_cons.mp h₂).2]

/-! ## Association map lemmas for the merge dict -/

theorem length_upsert (m : List Bar) (b : Bar) : (upsert m b).length ≤ m.length + 1 := by
  unfold upsert
  split
  · rw [List.length_map]
    exact Nat.le_succ _
  · rw [List.length_append]
    exact Nat.le_refl _

theorem valueAt_upsert (m : List Bar) (b : Bar) (t : ℚ) :
    valueAt (upsert m b) t = if b.timestamp = t then some b else valueAt m t := by
  unfold upsert valueAt
  by_cases hmem : m.any (fun x => decide (x.timestamp = b.timestamp)) = true
  · rw [if_pos hmem, List.find?_map]
    by_cases ht : b.timestamp = t
    · subst ht
      rw [if_pos rfl]
      have hpf : ((fun x : Bar => decide (x.timestamp = b.timestamp)) ∘
            (fun x : Bar => if x.timestamp = b.timestamp then b else x)) =
          (fun x : Bar => decide (x.timestamp = b.timestamp)) := by
        funext x
        by_cases hx : x.timestamp = b.timestamp
        · simp only [Function.comp_apply]
          rw [if_pos hx, hx]
        · simp only [Function.comp_apply]
          rw [if_neg hx]
      rw [hpf]
      obtain ⟨x, hxmem, hx⟩ := List.any_eq_true.mp hmem
      cases hfind : m.find? (fun x => decide (x.timestamp = b.timestamp)) with
      | none =>
          exact absurd hx (List.find?_eq_none.mp hfind x hxmem)
      | some y =>
          have hy := List.find?_some hfind
          simp only [decide_eq_true_eq] at hy
          simp [hy]
    · rw [if_neg ht]
      have hpf : ((fun x : Bar => decide (x.timestamp = t)) ∘
            (fun x : Bar => if x.timestamp = b.timestamp then b else x)) =
          (fun x : Bar => decide (x.timestamp = t)) := by
        funext x
        by_cases hx : x.timestamp = b.timestamp
        · simp only [Function.comp_apply]
          rw [if_pos hx, hx]
        · simp only [Function.comp_apply]
          rw [if_neg hx]
      rw [hpf]
      cases hfind : m.find? (fun x => decide (x.timestamp = t)) with
      | none => rfl
      | some y =>
          have hy := List.find?_some hfind
          simp only [decide_eq_true_eq] at hy
          have : (if y.timestamp = b.timestamp then b else y) = y := by
            rw [if_neg]
            intro hc
            exact ht (hc ▸ hy ▸ rfl)
          simp [this]
  · rw [if_neg hmem, List.find?_append]
    by_cases ht : b.timestamp = t
    · subst ht
      have h1 : m.find? (fun x => decide (x.timestamp = b.timestamp)) = none := by
        rw [List.find?_eq_none]
        intro x hxmem hc
        exact hmem (List.any_eq_true.mpr ⟨x, hxmem, hc⟩)
      rw [h1]
      simp
    · have h2 : [b].find? (fun x : Bar => decide (x.timestamp = t)) = none := by
        simp [List.find?, ht]
      rw [h2, if_neg ht]
      cases m.find? (fun x : Bar => decide (x.timestamp = t)) <;> rfl

theorem keysNodup_upsert {m : List Bar} (b : Bar) (h : keysNodup m) :
    keysNodup (upsert m b) := by
  unfold upsert
  by_cases hmem : m.any (fun x => decide (x.timestamp = b.timestamp)) = true
  · rw [if_pos hmem]
    unfold keysNodup at h ⊢
    rw [List.map_map]
    have hts : (Bar.timestamp ∘ fun x => if x.timestamp = b.timestamp then b else x) =
        Bar.timestamp := by
      funext x
      by_cases hx : x.timestamp = b.timestamp
      · simp only [Function.comp_apply]
        rw [if_pos hx, hx]
      · simp only [Function.comp_apply]
        rw [if_neg hx]
    rw [hts]
    exact h
  · rw [if_neg hmem]
    unfold keysNodup at h ⊢
    rw [List.map_append]
    rw [List.nodup_append]
    refine ⟨h, List.nodup_singleton _, ?_⟩
    intro a ha hb
    simp only [List.map_cons, List.map_nil, List.mem_singleton] at hb
    subst hb
    obtain ⟨x, hx, hxts⟩ := List.mem_map.mp ha
    exact hmem (List.any_eq_true.mpr ⟨x, hx, by simp [hxts]⟩)

theorem keysNodup_foldl_upsert (l : List Bar) : ∀ {m : List Bar}, keysNodup m →
    keysNodup (l.foldl upsert m) := by
  induction l with
  | nil => intro m h; exact h
  | cons b l ih =>
      intro m h
      rw [List.foldl_cons]
      exact ih (keysNodup_upsert b h)

theorem length_foldl_upsert (l : List Bar) : ∀ (m : List Bar),
    (l.foldl upsert m).length ≤ m.length + l.length := by
  induction l with
  | nil => intro m; simp
  | cons b l ih =>
      intro m
      rw [List.foldl_cons]
      calc (l.foldl upsert (upsert m b)).length
          ≤ (upsert m b).length + l.length := ih _
        _ ≤ m.length + 1 + l.length :=
            Nat.add_le_add_right (length_upsert m b) _
        _ = m.length + (b :: l).length := by
              simp only [List.length_cons]
              omega

theorem lastWith_append (l₁ l₂ : List Bar) (t : ℚ) :
    lastWith (l₁ ++ l₂) t = (lastWith l₂ t).or (lastWith l₁ t) := by
  unfold lastWith
  rw [List.reverse_append, List.find?_append]

theorem lastWith_cons (b : Bar) (l : List Bar) (t : ℚ) :
    lastWith (b :: l) t = (lastWith l t).or (if b.timestamp = t then some b else none) := by
  have : b :: l = [b] ++ l := rfl
  rw [this, lastWith_append]
  congr 1
  unfold lastWith
  by_cases hb : b.timestamp = t
  · rw [if_pos hb]
    simp [hb]
  · rw [if_neg hb]
    simp [hb]

theorem valueAt_foldl (l : List Bar) : ∀ (m : List Bar) (t : ℚ),
    valueAt (l.foldl upsert m) t = (lastWith l t).or (valueAt m t) := by
  induction l with
  | nil =>
      intro m t
      simp [lastWith]
  | cons b l ih =>
      intro m t
      rw [List.foldl_cons, ih, valueAt_upsert, lastWith_cons, Option.or_assoc]
      congr 1
      by_cases hb : b.timestamp = t
      · rw [if_pos hb, if_pos hb]
        rfl
      · rw [if_neg hb, if_neg hb]
        rw [Option.none_or]

theorem valueAt_eq_none_iff (m : List Bar) (t : ℚ) :
    valueAt m t = none ↔ ∀ b ∈ m, b.timestamp ≠ t := by
  unfold valueAt
  rw [List.find?_eq_none]
  simp

theorem bar_eq_of_keysNodup {m : List Bar} (h : keysNodup m) {b c : Bar} (hb : b ∈ m)
    (hc : c ∈ m) (hts : b.timestamp = c.timestamp) : b = c := by
  unfold keysNodup at h
  exact List.inj_on_of_nodup_map h hb hc hts

theorem valueAt_eq_some_iff {m : List Bar} {t : ℚ} {b : Bar} (h : keysNodup m) :
    valueAt m t = some b ↔ b ∈ m ∧ b.timestamp = t := by
  constructor
  · intro hf
    unfold valueAt at hf
    have hp := List.find?_some hf
    simp only [decide_eq_true_eq] at hp
    exact ⟨List.mem_of_find?_eq_some hf, hp⟩
  · rintro ⟨hmem, hts⟩
    cases hfind : valueAt m t with
    | none => exact absurd hts ((valueAt_eq_none_iff m t).mp hfind b hmem)
    | some c =>
        unfold valueAt at hfind
        have hc := List.mem_of_find?_eq_some hfind
        have hcts := List.find?_some hfind
        simp only [decide_eq_true_eq] at hcts
        rw [bar_eq_of_keysNodup h hc hmem (by rw [hcts, hts])]

theorem lastWith_eq_some {l : List Bar} {t : ℚ} {b : Bar} (h : lastWith l t = some b) :
    b ∈ l ∧ b.timestamp = t := by
  unfold lastWith at h
  have hp := List.find?_some h
  simp only [decide_eq_true_eq] at hp
  exact ⟨List.mem_reverse.mp (List.mem_of_find?_eq_some h), hp⟩

theorem lastWith_isSome_of_mem {l : List Bar} {b : Bar} {t : ℚ} (hb : b ∈ l)
    (hts : b.timestamp = t) : ∃ c, lastWith l t = some c := by
  unfold lastWith
  cases hfind : l.reverse.find? (fun x => decide (x.timestamp = t)) with
  | none =>
      have := List.find?_eq_none.mp hfind b (List.mem_reverse.mpr hb)
      simp [hts] at this
  | some c => exact ⟨c, rfl⟩

theorem lastWith_eq_valueAt {l : List Bar} (h : keysNodup l) (t : ℚ) :
    lastWith l t = valueAt l t := by
  cases hv : valueAt l t with
  | none =>
      have hnone := (valueAt_eq_none_iff l t).mp hv
      unfold lastWith
      rw [List.find?_eq_none]
      intro x hx
      simpa using hnone x (List.mem_reverse.mp hx)
  | some b =>
      obtain ⟨hmem, hts⟩ := (valueAt_eq_some_iff h).mp hv
      obtain ⟨c, hc⟩ := lastWith_isSome_of_mem hmem hts
      obtain ⟨hcmem, hcts⟩ := lastWith_eq_some hc
      rw [hc, bar_eq_of_keysNodup h hcmem hmem (by rw [hcts, hts])]

theorem valueAt_of_perm {l l' : List Bar} (hp : l.Perm l') (h : keysNodup l) (t : ℚ) :
    valueAt l t = valueAt l' t := by
  have h' := keysNodup_of_perm hp h
  cases hv : valueAt l' t with
  | some b =>
      obtain ⟨hm, hts⟩ := (valueAt_eq_some_iff h').mp hv
      exact (valueAt_eq_some_iff h).mpr ⟨hp.mem_iff.mpr hm, hts⟩
  | none =>
      rw [valueAt_eq_none_iff] at hv ⊢
      intro b hb
      exact hv b (hp.mem_iff.mp hb)

theorem valueAt_nil (t : ℚ) : valueAt [] t = none := rfl

theorem valueAt_cons_self (a : Bar) (l : List Bar) : valueAt (a :: l) a.timestamp = some a := by
  unfold valueAt
  rw [List.find?_cons_of_pos]
  simp

theorem valueAt_cons_of_ne {a : Bar} {t : ℚ} (h : a.timestamp ≠ t) (l : List Bar) :
    valueAt (a :: l) t = valueAt l t := by
  unfold valueAt
  rw [List.find?_cons_of_neg]
  simp [h]

theorem perm_of_valueAt_eq : ∀ {l₁ l₂ : List Bar}, keysNodup l₁ → keysNodup l₂ →
    (∀ t, valueAt l₁ t = valueAt l₂ t) → l₁.Perm l₂ := by
  intro l₁
  induction l₁ with
  | nil =>
      intro l₂ _ _ hagree
      cases l₂ with
      | nil => exact List.Perm.refl _
      | cons b t₂ =>
          have h0 := (hagree b.timestamp).symm.trans (valueAt_nil b.timestamp)
          rw [valueAt_cons_self] at h0
          exact absurd h0 (by simp)
  | cons a t₁ ih =>
      intro l₂ h₁ h₂ hagree
      have h₁t : keysNodup t₁ := by
        unfold keysNodup at h₁ ⊢
        exact (List.nodup_cons.mp h₁).2
      have h₁a : a.timestamp ∉ t₁.map Bar.timestamp := by
        unfold keysNodup at h₁
        exact (List.nodup_cons.mp h₁).1
      have hsome : valueAt l₂ a.timestamp = some a := by
        rw [← hagree, valueAt_cons_self]
      have hmem : a ∈ l₂ := ((valueAt_eq_some_iff h₂).mp hsome).1
      obtain ⟨u, v, hanu, hl₂, herase⟩ := List.exists_erase_eq hmem
      have hperm2 : l₂.Perm (a :: l₂.erase a) := List.perm_cons_erase hmem
      have hkeyerase : keysNodup (l₂.erase a) := by
        unfold keysNodup at h₂ ⊢
        exact List.Nodup.sublist ((List.erase_sublist a l₂).map Bar.timestamp) h₂
      have htail : t₁.Perm (l₂.erase a) := by
        apply ih h₁t hkeyerase
        intro t
        by_cases ht : t = a.timestamp
        · subst ht
          have hleft : valueAt t₁ a.timestamp = none := by
            rw [valueAt_eq_none_iff]
            intro b hb hc
            exact h₁a (hc ▸ List.mem_map_of_mem Bar.timestamp hb)
          have hright : valueAt (l₂.erase a) a.timestamp = none := by
            rw [valueAt_eq_none_iff]
            intro b hb hc
            have hbl₂ : b ∈ l₂ := (List.erase_sublist a l₂).subset hb
            have hba : b = a := bar_eq_of_keysNodup h₂ hbl₂ hmem hc
            subst hba
            rw [herase] at hb
            rcases List.mem_append.mp hb with hmem' | hmem'
            · exact hanu hmem'
            · unfold keysNodup at h₂
              rw [hl₂, List.map_append, List.map_cons] at h₂
              have hpart := (List.nodup_append.mp h₂).2.1
              exact (List.nodup_cons.mp hpart).1 (List.mem_map_of_mem Bar.timestamp hmem')
          rw [hleft, hright]
        · have hl : valueAt (a :: t₁) t = valueAt t₁ t :=
            valueAt_cons_of_ne (fun hc => ht hc.symm) t₁
          have hr : valueAt l₂ t = valueAt (l₂.erase a) t := by
            rw [herase, hl₂]
            unfold valueAt
            rw [List.find?_append, List.find?_append]
            congr 1
            rw [List.find?_cons_of_neg]
            simp
            intro hc
            exact ht hc.symm
          rw [← hl, hagree t, hr]
      exact (htail.cons a).trans hperm2.symm

/-! ## Merge lemmas -/

theorem keysNodup_mergeMap (e i : List Bar) : keysNodup (mergeMap e i) :=
  keysNodup_foldl_upsert _ (by simp [keysNodup])

theorem valueAt_mergeMap (e i : List Bar) (t : ℚ) :
    valueAt (mergeMap e i) t = (lastWith i t).or (lastWith e t) := by
  unfold mergeMap
  rw [valueAt_foldl, valueAt_nil, Option.or_none, lastWith_append]

theorem keysNodup_merge (e i : List Bar) : keysNodup (merge_incremental e i) :=
  keysNodup_of_perm (sortBars_perm _).symm (keysNodup_mergeMap e i)

theorem merge_pairwise_lt (e i : List Bar) :
    List.Pairwise barLT (merge_incremental e i) :=
  sortBars_pairwise_lt (keysNodup_mergeMap e i)

theorem merge_length (e i : List Bar) :
    (merge_incremental e i).length ≤ e.length + i.length := by
  unfold merge_incremental
  rw [(sortBars_perm _).length_eq]
  unfold mergeMap
  have h := length_foldl_upsert (e ++ i) []
  simpa using h

theorem valueAt_merge (e i : List Bar) (t : ℚ) :
    valueAt (merge_incremental e i) t = (lastWith i t).or (lastWith e t) := by
  rw [← valueAt_mergeMap]
  exact valueAt_of_perm (sortBars_perm _) (keysNodup_merge e i) t

/-- C1: for every pair of bar lists, `merge_incremental` returns at most
len(existing)+len(incoming) bars, strictly ascending by normalised
timestamp, and for every timestamp present in both inputs the output
bar at that timestamp is the (latest) incoming bar with that timestamp,
the unique output bar there — never the existing one. -/
theorem merge_incremental_spec (existing incoming : List Bar) :
    (merge_incremental existing incoming).length ≤ existing.length + incoming.length ∧
    List.Pairwise barLT (merge_incremental existing incoming) ∧
    ∀ t : ℚ, (∃ a ∈ existing, a.timestamp = t) → (∃ a ∈ incoming, a.timestamp = t) →
      ∃ b, lastWith incoming t = some b ∧ b ∈ incoming ∧ b.timestamp = t ∧
        b ∈ merge_incremental existing incoming ∧
        ∀ c ∈ merge_incremental existing incoming, c.timestamp = t → c = b := by
  refine ⟨merge_length existing incoming, merge_pairwise_lt existing incoming, ?_⟩
  intro t _ hinc
  obtain ⟨a, ha, hats⟩ := hinc
  obtain ⟨b, hb⟩ := lastWith_isSome_of_mem ha hats
  obtain ⟨hbmem, hbts⟩ := lastWith_eq_some hb
  have hval : valueAt (merge_incremental existing incoming) t = some b := by
    rw [valueAt_merge, hb]
    rfl
  have hkey := keysNodup_merge existing incoming
  obtain ⟨hmm, _⟩ := (valueAt_eq_some_iff hkey).mp hval
  refine ⟨b, hb, hbmem, hbts, hmm, ?_⟩
  intro c hc hcts
  exact bar_eq_of_keysNodup hkey hc hmm (by rw [hcts, hbts])

/-- Witness for the conditional part of the merge specification, at a
timestamp shared by one existing and one incoming bar with different
prices. -/
theorem merge_incremental_spec_witness :
    ∃ b, lastWith [(⟨5, 2, 2, 2, 2, 2⟩ : Bar)] 5 = some b ∧
      b ∈ [(⟨5, 2, 2, 2, 2, 2⟩ : Bar)] ∧ b.timestamp = 5 ∧
      b ∈ merge_incremental [(⟨5, 1, 1, 1, 1, 1⟩ : Bar)] [(⟨5, 2, 2, 2, 2, 2⟩ : Bar)] ∧
      ∀ c ∈ merge_incremental [(⟨5, 1, 1, 1, 1, 1⟩ : Bar)] [(⟨5, 2, 2, 2, 2, 2⟩ : Bar)],
        c.timestamp = 5 → c = b :=
  (merge_incremental_spec [⟨5, 1, 1, 1, 1, 1⟩] [⟨5, 2, 2, 2, 2, 2⟩]).2.2 5
    ⟨⟨5, 1, 1, 1, 1, 1⟩, by simp, rfl⟩ ⟨⟨5, 2, 2, 2, 2, 2⟩, by simp, rfl⟩

/-! ## Gap filling lemmas -/

theorem mem_fillerBars {i g : ℤ} {p c x : Bar} (hx : x ∈ fillerBars i g p c) :
    x.open_ = p.close ∧ x.high = p.close ∧ x.low = p.close ∧ x.close = p.close ∧
    x.volume = 0 ∧
    ∃ m k : ℕ, k < m ∧
      x.timestamp = p.timestamp +
        (c.timestamp - p.timestamp) * (((k + 1 : ℕ) : ℚ) / ((m : ℚ) + 1)) := by
  simp only [fillerBars] at hx
  split at hx
  · obtain ⟨k, hk, rfl⟩ := List.mem_map.mp hx
    refine ⟨rfl, rfl, rfl, rfl, rfl, (⌊c.timestamp - p.timestamp⌋.fdiv i - 1).toNat, k,
      List.mem_range.mp hk, ?_⟩
    push_cast
    ring
  · simp at hx

theorem fillerBars_between {i g : ℤ} {p c x : Bar} (hpc : p.timestamp < c.timestamp)
    (hx : x ∈ fillerBars i g p c) :
    p.timestamp < x.timestamp ∧ x.timestamp < c.timestamp := by
  obtain ⟨-, -, -, -, -, m, k, hk, hts⟩ := mem_fillerBars hx
  have hδ : 0 < c.timestamp - p.timestamp := sub_pos.mpr hpc
  have hm1 : (0 : ℚ) < (m : ℚ) + 1 := by positivity
  have hrpos : 0 < (((k + 1 : ℕ) : ℚ) / ((m : ℚ) + 1)) := by positivity
  have hrlt : (((k + 1 : ℕ) : ℚ) / ((m : ℚ) + 1)) < 1 := by
    rw [div_lt_one hm1]
    push_cast
    have hkm : (k : ℚ) < (m : ℚ) := by exact_mod_cast hk
    linarith
  constructor
  · rw [hts]
    nlinarith
  · rw [hts]
    nlinarith

theorem fillerBars_pairwise {i g : ℤ} {p c : Bar} (hpc : p.timestamp < c.timestamp) :
    List.Pairwise barLT (fillerBars i g p c) := by
  have hδ : 0 < c.timestamp - p.timestamp := sub_pos.mpr hpc
  simp only [fillerBars]
  split
  · rw [List.pairwise_map]
    refine (List.pairwise_lt_range _).imp ?_
    intro a b hab
    simp only [barLT]
    set M := (⌊c.timestamp - p.timestamp⌋.fdiv i - 1).toNat with hM
    have hm1 : (0 : ℚ) < (M : ℚ) + 1 := by positivity
    have hnum : ((a + 1 : ℕ) : ℚ) < ((b + 1 : ℕ) : ℚ) := by
      exact_mod_cast Nat.succ_lt_succ hab
    have hfrac : ((a + 1 : ℕ) : ℚ) / ((M : ℚ) + 1) < ((b + 1 : ℕ) : ℚ) / ((M : ℚ) + 1) := by
      rw [div_lt_div_iff hm1 hm1]
      nlinarith [hnum, hm1]
    have hmul := mul_lt_mul_of_pos_left hfrac hδ
    linarith [hmul]
  · exact List.Pairwise.nil

theorem adjPairs_cons₂ (p c : Bar) (rest : List Bar) :
    adjPairs (p :: c :: rest) = (p, c) :: adjPairs (c :: rest) := by
  simp [adjPairs]

theorem mem_fillWalk_of_mem {i g : ℤ} (p : Bar) (rest : List Bar) :
    ∀ x ∈ rest, x ∈ fillWalk i g p rest := by
  induction rest generalizing p with
  | nil => intro x hx; simp at hx
  | cons c rest ih =>
      intro x hx
      unfold fillWalk
      rcases List.mem_cons.mp hx with rfl | hx'
      · simp
      · simp only [List.mem_append, List.mem_cons]
        exact Or.inr (Or.inr (ih c x hx'))

theorem fillerBars_subset_fillWalk {i g : ℤ} {p : Bar} {rest : List Bar} {a b : Bar}
    (hab : (a, b) ∈ adjPairs (p :: rest)) :
    ∀ x ∈ fillerBars i g a b, x ∈ fillWalk i g p rest := by
  induction rest generalizing p with
  | nil => simp [adjPairs] at hab
  | cons c rest ih =>
      rw [adjPairs_cons₂] at hab
      rcases List.mem_cons.mp hab with heq | hmem
      · obtain ⟨rfl, rfl⟩ := Prod.mk.injEq .. ▸ (by exact ⟨congrArg Prod.fst heq, congrArg Prod.snd heq⟩ :
          a = p ∧ b = c)
        intro x hx
        unfold fillWalk
        exact List.mem_append.mpr (Or.inl hx)
      · intro x hx
        unfold fillWalk
        simp only [List.mem_append, List.mem_cons]
        exact Or.inr (Or.inr (ih hmem x hx))

theorem mem_fillWalk_cases {i g : ℤ} {p : Bar} {rest : List Bar} {x : Bar}
    (hx : x ∈ fillWalk i g p rest) :
    x ∈ rest ∨ ∃ ab ∈ adjPairs (p :: rest), x ∈ fillerBars i g ab.1 ab.2 := by
  induction rest generalizing p with
  | nil => simp [fillWalk] at hx
  | cons c rest ih =>
      unfold fillWalk at hx
      rcases List.mem_append.mp hx with hf | hcw
      · exact Or.inr ⟨(p, c), by rw [adjPairs_cons₂]; exact List.mem_cons_self _ _, hf⟩
      · rcases List.mem_cons.mp hcw with rfl | hw
        · exact Or.inl (List.mem_cons_self _ _)
        · rcases ih hw with hmem | ⟨ab, habmem, habx⟩
          · exact Or.inl (List.mem_cons_of_mem _ hmem)
          · exact Or.inr ⟨ab, by rw [adjPairs_cons₂]; exact List.mem_cons_of_mem _ habmem, habx⟩

theorem fillWalk_pairwise {i g : ℤ} : ∀ {p : Bar} {rest : List Bar},
    List.Pairwise barLT (p :: rest) → List.Pairwise barLT (p :: fillWalk i g p rest) := by
  intro p rest
  induction rest generalizing p with
  | nil => intro _; simp [fillWalk]
  | cons c rest ih =>
      intro h
      obtain ⟨hp, hcrest⟩ := List.pairwise_cons.mp h
      have hpc : barLT p c := hp c (List.mem_cons_self _ _)
      have ihc : List.Pairwise barLT (c :: fillWalk i g c rest) := ih hcrest
      have hcW : ∀ y ∈ fillWalk i g c rest, barLT c y := (List.pairwise_cons.mp ihc).1
      unfold fillWalk
      rw [List.pairwise_cons]
      constructor
      · intro y hy
        rcases List.mem_append.mp hy with hf | hcw
        · exact (fillerBars_between hpc hf).1
        · rcases List.mem_cons.mp hcw with rfl | hw
          · exact hpc
          · exact lt_trans hpc (hcW y hw)
      · rw [List.pairwise_append]
        refine ⟨fillerBars_pairwise hpc, ihc, ?_⟩
        intro a ha b hb
        have hac : a.timestamp < c.timestamp := (fillerBars_between hpc ha).2
        rcases List.mem_cons.mp hb with rfl | hw
        · exact hac
        · exact lt_trans hac (hcW b hw)

theorem fill_missing_cons {b : Bar} {rest : List Bar} {i g : ℤ}
    (h : List.Pairwise barLT (b :: rest)) :
    fill_missing (b :: rest) i g = b :: fillWalk i g b rest := by
  cases rest with
  | nil => rfl
  | cons c rest' =>
      unfold fill_missing
      rw [sortBars_eq_of_sorted (sorted_of_pairwise_lt h)]
      exact sortBars_eq_of_sorted (sorted_of_pairwise_lt (fillWalk_pairwise h))

theorem fill_missing_pairwise {l : List Bar} {i g : ℤ} (h : List.Pairwise barLT l) :
    List.Pairwise barLT (fill_missing l i g) := by
  cases l with
  | nil => exact List.Pairwise.nil
  | cons b rest =>
      rw [fill_missing_cons h]
      exact fillWalk_pairwise h

theorem subset_fill_missing {l : List Bar} {i g : ℤ} (h : List.Pairwise barLT l) :
    ∀ x ∈ l, x ∈ fill_missing l i g := by
  cases l with
  | nil => intro x hx; simp at hx
  | cons b rest =>
      intro x hx
      rw [fill_missing_cons h]
      rcases List.mem_cons.mp hx with rfl | hx'
      · exact List.mem_cons_self _ _
      · exact List.mem_cons_of_mem _ (mem_fillWalk_of_mem b rest x hx')

theorem mem_fill_missing_cases {l : List Bar} {i g : ℤ} (h : List.Pairwise barLT l)
    {x : Bar} (hx : x ∈ fill_missing l i g) :
    x ∈ l ∨ ∃ ab ∈ adjPairs l, x ∈ fillerBars i g ab.1 ab.2 := by
  cases l with
  | nil => exact absurd hx (List.not_mem_nil x)
  | cons b rest =>
      rw [fill_missing_cons h] at hx
      rcases List.mem_cons.mp hx with rfl | hw
      · exact Or.inl (List.mem_cons_self _ _)
      · rcases mem_fillWalk_cases hw with hmem | hex
        · exact Or.inl (List.mem_cons_of_mem _ hmem)
        · exact Or.inr hex

theorem fillerBars_eq_nil_of_floor_lt {i g : ℤ} (hi : 1 ≤ i) {p c : Bar}
    (hlt : ⌊c.timestamp - p.timestamp⌋ < 2 * i) : fillerBars i g p c = [] := by
  simp only [fillerBars]
  split
  · have hfd : ⌊c.timestamp - p.timestamp⌋.fdiv i = ⌊c.timestamp - p.timestamp⌋ / i :=
      Int.fdiv_eq_ediv _ (by omega)
    have hdivlt : ⌊c.timestamp - p.timestamp⌋ / i < 2 :=
      (Int.ediv_lt_iff_lt_mul (by omega)).mpr (by omega)
    have h0 : (⌊c.timestamp - p.timestamp⌋.fdiv i - 1).toNat = 0 := by omega
    rw [h0]
    simp
  · rfl

theorem spacing_floor_lt {i : ℤ} (hi : 1 ≤ i) {δ : ℚ} {m : ℕ} (hm : 1 ≤ m)
    (hfd : (⌊δ⌋.fdiv i - 1).toNat = m) : ⌊δ / ((m : ℚ) + 1)⌋ < 2 * i := by
  have hed : ⌊δ⌋ / i = (m : ℤ) + 1 := by
    rw [← Int.fdiv_eq_ediv _ (by omega)]
    omega
  have h2 : ⌊δ⌋ / i < (m : ℤ) + 2 := by omega
  have hub : ⌊δ⌋ < ((m : ℤ) + 2) * i := (Int.ediv_lt_iff_lt_mul (by omega)).mp h2
  have h3 : ⌊δ⌋ + 1 ≤ ((m : ℤ) + 2) * i := Int.lt_iff_add_one_le.mp hub
  have hδub : δ < ((((m : ℤ) + 2) * i : ℤ) : ℚ) := by
    calc δ < (⌊δ⌋ : ℚ) + 1 := Int.lt_floor_add_one δ
      _ ≤ ((((m : ℤ) + 2) * i : ℤ) : ℚ) := by exact_mod_cast h3
  rw [Int.floor_lt, div_lt_iff (by positivity)]
  have hi' : (1 : ℚ) ≤ (i : ℚ) := by exact_mod_cast hi
  have hm' : (1 : ℚ) ≤ (m : ℚ) := by exact_mod_cast hm
  have hle : ((((m : ℤ) + 2) * i : ℤ) : ℚ) ≤ ((2 * i : ℤ) : ℚ) * ((m : ℚ) + 1) := by
    push_cast
    nlinarith [hi', hm']
  linarith

theorem chain_fillers (R : Bar → Bar → Prop) (p c : Bar) (f : ℕ → Bar) (M : ℕ)
    (hhead : 1 ≤ M → R p (f 0))
    (hstep : ∀ k, k + 1 < M → R (f k) (f (k + 1)))
    (hlast : 1 ≤ M → R (f (M - 1)) c)
    (hMz : M = 0 → R p c) :
    List.Chain' R (p :: List.map f (List.range M) ++ [c]) := by
  cases M with
  | zero => simpa using List.chain'_cons.mpr ⟨hMz rfl, List.chain'_singleton c⟩
  | succ M' =>
      have hone : 1 ≤ M' + 1 := Nat.succ_le_succ (Nat.zero_le _)
      apply List.Chain'.append
      · rw [List.chain'_cons']
        constructor
        · intro y hy
          rw [List.range_succ_eq_map] at hy
          simp only [List.map_cons, List.head?_cons, Option.mem_def,
            Option.some.injEq] at hy
          subst hy
          exact hhead hone
        · rw [List.chain'_map, List.chain'_range_succ]
          intro k hk
          exact hstep k (Nat.succ_lt_succ hk)
      · exact List.chain'_singleton c
      · intro x hx y hy
        simp only [List.head?_cons, Option.mem_def, Option.some.injEq] at hy
        subst hy
        rw [List.range_succ, List.map_append] at hx
        simp only [List.map_cons, List.map_nil] at hx
        rw [← List.cons_append, List.getLast?_concat] at hx
        simp only [Option.mem_def, Option.some.injEq] at hx
        subst hx
        exact hlast hone

theorem fillerBars_chain {i g : ℤ} (hi : 1 ≤ i) {p c : Bar} (hpc : p.timestamp < c.timestamp) :
    List.Chain' (fun a b => fillerBars i g a b = []) (p :: fillerBars i g p c ++ [c]) := by
  have hδ : 0 < c.timestamp - p.timestamp := sub_pos.mpr hpc
  by_cases hcond : ⌊c.timestamp - p.timestamp⌋ > i ∧ ⌊c.timestamp - p.timestamp⌋ ≤ g
  · set M := (⌊c.timestamp - p.timestamp⌋.fdiv i - 1).toNat with hMdef
    have hFeq : fillerBars i g p c =
        List.map (fun k : ℕ =>
          ({ timestamp := p.timestamp + (c.timestamp - p.timestamp) *
                (((k + 1 : ℕ) : ℚ) / ((M : ℚ) + 1)),
             open_ := p.close, high := p.close, low := p.close, close := p.close,
             volume := 0 } : Bar)) (List.range M) := by
      simp only [fillerBars]
      rw [if_pos hcond]
    rw [hFeq]
    refine chain_fillers _ p c _ M ?_ ?_ ?_ ?_
    · intro hM1
      apply fillerBars_eq_nil_of_floor_lt hi
      dsimp only
      have hsp := spacing_floor_lt hi hM1 hMdef.symm
      convert hsp using 2
      push_cast
      ring
    · intro k hk
      have hM1 : 1 ≤ M := by omega
      apply fillerBars_eq_nil_of_floor_lt hi
      dsimp only
      have hsp := spacing_floor_lt hi hM1 hMdef.symm
      convert hsp using 2
      push_cast
      ring
    · intro hM1
      apply fillerBars_eq_nil_of_floor_lt hi
      dsimp only
      have hsp := spacing_floor_lt hi hM1 hMdef.symm
      convert hsp using 2
      rw [Nat.sub_add_cancel hM1]
      have hne : ((M : ℚ) + 1) ≠ 0 := by positivity
      field_simp
      ring
    · intro hM0
      show fillerBars i g p c = []
      rw [hFeq, hM0]
      rfl
  · have hF : fillerBars i g p c = [] := by
      simp only [fillerBars]
      rw [if_neg hcond]
    rw [hF]
    exact List.chain'_cons.mpr ⟨hF, List.chain'_singleton c⟩

theorem fillWalk_chain {i g : ℤ} (hi : 1 ≤ i) : ∀ {p : Bar} {rest : List Bar},
    List.Pairwise barLT (p :: rest) →
    List.Chain' (fun a b => fillerBars i g a b = []) (p :: fillWalk i g p rest) := by
  intro p rest
  induction rest generalizing p with
  | nil => intro _; simp [fillWalk]
  | cons c rest ih =>
      intro h
      obtain ⟨hp, hcrest⟩ := List.pairwise_cons.mp h
      have hpc : p.timestamp < c.timestamp := hp c (List.mem_cons_self _ _)
      have h1 : List.Chain' (fun a b => fillerBars i g a b = [])
          (p :: fillerBars i g p c ++ [c]) := fillerBars_chain hi hpc
      have h2' : List.Chain' (fun a b => fillerBars i g a b = [])
          ([c] ++ fillWalk i g c rest) := ih hcrest
      have h3 := List.Chain'.append_overlap h1 h2' (by simp)
      unfold fillWalk
      simpa [List.append_assoc] using h3

theorem fillWalk_eq_of_chain {i g : ℤ} : ∀ {p : Bar} {rest : List Bar},
    List.Chain' (fun a b => fillerBars i g a b = []) (p :: rest) →
    fillWalk i g p rest = rest := by
  intro p rest
  induction rest generalizing p with
  | nil => intro _; rfl
  | cons c rest ih =>
      intro h
      obtain ⟨hpc, hrest⟩ := List.chain'_cons.mp h
      unfold fillWalk
      rw [hpc, ih hrest]
      rfl

theorem fill_missing_chain {l : List Bar} {i g : ℤ} (hi : 1 ≤ i)
    (h : List.Pairwise barLT l) :
    List.Chain' (fun a b => fillerBars i g a b = []) (fill_missing l i g) := by
  cases l with
  | nil => exact List.chain'_nil
  | cons b rest =>
      rw [fill_missing_cons h]
      exact fillWalk_chain hi h

theorem fill_missing_eq_self {l : List Bar} {i g : ℤ} (h : List.Pairwise barLT l)
    (hc : List.Chain' (fun a b => fillerBars i g a b = []) l) :
    fill_missing l i g = l := by
  cases l with
  | nil => rfl
  | cons b rest => rw [fill_missing_cons h, fillWalk_eq_of_chain hc]

theorem merge_incremental_absorb {S inc : List Bar} (hp : List.Pairwise barLT S)
    (habs : ∀ t b, lastWith inc t = some b → valueAt S t = some b) :
    merge_incremental S inc = S := by
  have hkS := keysNodup_of_pairwise_lt hp
  have hagree : ∀ t, valueAt (merge_incremental S inc) t = valueAt S t := by
    intro t
    rw [valueAt_merge, lastWith_eq_valueAt hkS]
    cases hlw : lastWith inc t with
    | none => rw [Option.none_or]
    | some b =>
        rw [habs t b hlw]
        rfl
  exact eq_of_perm_of_pairwise_lt
    (perm_of_valueAt_eq (keysNodup_merge S inc) hkS hagree)
    (merge_pairwise_lt S inc) hp

/-- C2: updating the store twice with the same incoming bars leaves the
stored state identical to a single update (the second merge changes
nothing and the repaired history has no fillable gaps left). -/
theorem update_store_idempotent (stored incoming : List Bar) (interval max_gap : ℤ)
    (hi : 1 ≤ interval) :
    update_store (update_store stored incoming interval max_gap) incoming interval max_gap =
      update_store stored incoming interval max_gap := by
  have hM0p := merge_pairwise_lt stored incoming
  have hS1p : List.Pairwise barLT
      (fill_missing (merge_incremental stored incoming) interval max_gap) :=
    fill_missing_pairwise hM0p
  have hupd1 : update_store stored incoming interval max_gap =
      fill_missing (merge_incremental stored incoming) interval max_gap := by
    unfold update_store
    exact sortBars_eq_of_sorted (sorted_of_pairwise_lt hS1p)
  rw [hupd1]
  have habs : ∀ t b, lastWith incoming t = some b →
      valueAt (fill_missing (merge_incremental stored incoming) interval max_gap) t =
        some b := by
    intro t b hlw
    obtain ⟨hbmem, hbts⟩ := lastWith_eq_some hlw
    have hvalM0 : valueAt (merge_incremental stored incoming) t = some b := by
      rw [valueAt_merge, hlw]
      rfl
    have hbM0 : b ∈ merge_incremental stored incoming :=
      ((valueAt_eq_some_iff (keysNodup_merge _ _)).mp hvalM0).1
    have hbS1 : b ∈ fill_missing (merge_incremental stored incoming) interval max_gap :=
      subset_fill_missing hM0p b hbM0
    exact (valueAt_eq_some_iff (keysNodup_of_pairwise_lt hS1p)).mpr ⟨hbS1, hbts⟩
  have hmerge2 := merge_incremental_absorb hS1p habs
  unfold update_store
  rw [hmerge2, fill_missing_eq_self hS1p (fill_missing_chain hi hM0p)]
  exact sortBars_eq_of_sorted (sorted_of_pairwise_lt hS1p)

/-- Witness for the idempotence theorem at a concrete store update with
a repairable 45 minute gap on a 15 minute timeframe. -/
theorem update_store_idempotent_witness :
    (1 : ℤ) ≤ 15 ∧
      update_store
          (update_store [(⟨0, 1, 1, 1, 1, 1⟩ : Bar)] [⟨45, 2, 2, 2, 2, 2⟩] 15 60)
          [⟨45, 2, 2, 2, 2, 2⟩] 15 60 =
        update_store [(⟨0, 1, 1, 1, 1, 1⟩ : Bar)] [⟨45, 2, 2, 2, 2, 2⟩] 15 60 :=
  ⟨by decide, update_store_idempotent _ _ 15 60 (by decide)⟩

theorem adjPairs_mem (l : List Bar) {a b : Bar} (hab : (a, b) ∈ adjPairs l) :
    a ∈ l ∧ b ∈ l := by
  obtain ⟨ha, hb⟩ := List.of_mem_zip hab
  exact ⟨ha, List.mem_of_mem_tail hb⟩

theorem adjPairs_rel : ∀ {l : List Bar}, List.Pairwise barLT l →
    ∀ ab ∈ adjPairs l, barLT ab.1 ab.2 := by
  intro l
  induction l with
  | nil => intro _ ab hab; simp [adjPairs] at hab
  | cons d rest ih =>
      intro h ab hab
      cases rest with
      | nil => simp [adjPairs] at hab
      | cons e rest' =>
          rw [adjPairs_cons₂] at hab
          obtain ⟨hd, hrest⟩ := List.pairwise_cons.mp h
          rcases List.mem_cons.mp hab with rfl | hmem
          · exact hd e (List.mem_cons_self _ _)
          · exact ih hrest ab hmem

theorem adjPairs_cons_of_mem {M : List Bar} (d : Bar) {ab : Bar × Bar}
    (h : ab ∈ adjPairs M) : ab ∈ adjPairs (d :: M) := by
  cases M with
  | nil => simp [adjPairs] at h
  | cons e rest =>
      rw [adjPairs_cons₂]
      exact List.mem_cons_of_mem _ h

theorem mem_adjPairs_append (l₁ : List Bar) (p c : Bar) (l₂ : List Bar) :
    (p, c) ∈ adjPairs (l₁ ++ p :: c :: l₂) := by
  induction l₁ with
  | nil =>
      rw [List.nil_append, adjPairs_cons₂]
      exact List.mem_cons_self _ _
  | cons d l₁ ih =>
      rw [List.cons_append]
      exact adjPairs_cons_of_mem d ih

theorem adjPairs_append_cases : ∀ {l₁ : List Bar} {l₂ : List Bar} {p c a b : Bar},
    List.Pairwise barLT (l₁ ++ p :: c :: l₂) →
    (a, b) ∈ adjPairs (l₁ ++ p :: c :: l₂) →
    (a = p ∧ b = c) ∨ b.timestamp ≤ p.timestamp ∨ c.timestamp ≤ a.timestamp := by
  intro l₁
  induction l₁ with
  | nil =>
      intro l₂ p c a b h hab
      rw [List.nil_append, adjPairs_cons₂] at hab
      rcases List.mem_cons.mp hab with heq | hmem
      · exact Or.inl ⟨congrArg Prod.fst heq, congrArg Prod.snd heq⟩
      · have ha : a ∈ c :: l₂ := (adjPairs_mem _ hmem).1
        have hc : List.Pairwise barLT (c :: l₂) := (List.pairwise_cons.mp h).2
        rcases List.mem_cons.mp ha with rfl | hmem'
        · exact Or.inr (Or.inr le_rfl)
        · exact Or.inr (Or.inr (le_of_lt ((List.pairwise_cons.mp hc).1 a hmem')))
  | cons d l₁ ih =>
      intro l₂ p c a b h hab
      rw [List.cons_append] at hab h
      obtain ⟨hd, htail⟩ := List.pairwise_cons.mp h
      cases hl : l₁ with
      | nil =>
          subst hl
          rw [List.nil_append] at hab htail
          rw [adjPairs_cons₂] at hab
          rcases List.mem_cons.mp hab with heq | hmem
          · have hb : b = p := congrArg Prod.snd heq
            exact Or.inr (Or.inl (le_of_eq (congrArg Bar.timestamp hb)))
          · exact ih htail hmem
      | cons e l₁' =>
          subst hl
          rw [List.cons_append, adjPairs_cons₂] at hab
          rcases List.mem_cons.mp hab with heq | hmem
          · have hb : b = e := congrArg Prod.snd heq
            have hep : e.timestamp < p.timestamp :=
              (List.pairwise_cons.mp htail).1 p (by simp)
            exact Or.inr (Or.inl (le_of_lt (hb ▸ hep)))
          · exact ih htail hmem

theorem orig_not_between {l₁ l₂ : List Bar} {p c f : Bar}
    (hsorted : List.Pairwise barLT (l₁ ++ p :: c :: l₂))
    (hf : f ∈ l₁ ++ p :: c :: l₂) (h1 : p.timestamp < f.timestamp)
    (h2 : f.timestamp < c.timestamp) : False := by
  obtain ⟨-, hmid, hcross⟩ := List.pairwise_append.mp hsorted
  rcases List.mem_append.mp hf with hf₁ | hf₂
  · exact absurd (lt_trans (hcross f hf₁ p (by simp)) h1) (lt_irrefl _)
  · rcases List.mem_cons.mp hf₂ with rfl | hf₃
    · exact absurd h1 (lt_irrefl _)
    · rcases List.mem_cons.mp hf₃ with rfl | hf₄
      · exact absurd h2 (lt_irrefl _)
      · have hcf : c.timestamp < f.timestamp :=
          (List.pairwise_cons.mp (List.pairwise_cons.mp hmid).2).1 f hf₄
        exact absurd (lt_trans hcf h2) (lt_irrefl _)

theorem fillerBars_mem_fill {i g : ℤ} {l : List Bar} {a b : Bar}
    (h : List.Pairwise barLT l) (hab : (a, b) ∈ adjPairs l) :
    ∀ x ∈ fillerBars i g a b, x ∈ fill_missing l i g := by
  cases l with
  | nil => simp [adjPairs] at hab
  | cons hd rest =>
      intro x hx
      rw [fill_missing_cons h]
      exact List.mem_cons_of_mem _ (fillerBars_subset_fillWalk hab x hx)

theorem between_mem_fillerBars {i g : ℤ} {l₁ l₂ : List Bar} {p c f : Bar}
    (hsorted : List.Pairwise barLT (l₁ ++ p :: c :: l₂))
    (hf : f ∈ fill_missing (l₁ ++ p :: c :: l₂) i g)
    (h1 : p.timestamp < f.timestamp) (h2 : f.timestamp < c.timestamp) :
    f ∈ fillerBars i g p c := by
  rcases mem_fill_missing_cases hsorted hf with hmem | ⟨ab, habmem, habf⟩
  · exact absurd hmem (fun hmem => orig_not_between hsorted hmem h1 h2)
  · have hlt : ab.1.timestamp < ab.2.timestamp := adjPairs_rel hsorted ab habmem
    have hbetween := fillerBars_between hlt habf
    rcases adjPairs_append_cases hsorted habmem with ⟨hap, hbc⟩ | hble | hage
    · rw [← hap, ← hbc]
      exact habf
    · exact absurd (lt_trans h1 (lt_of_lt_of_le hbetween.2 hble)) (lt_irrefl _)
    · exact absurd (lt_trans (lt_of_le_of_lt hage hbetween.1) h2) (lt_irrefl _)

theorem fillerBars_eq_nil_of_fdiv_lt {i g : ℤ} {p c : Bar}
    (h2 : ⌊c.timestamp - p.timestamp⌋.fdiv i < 2) : fillerBars i g p c = [] := by
  simp only [fillerBars]
  split
  · have h0 : (⌊c.timestamp - p.timestamp⌋.fdiv i - 1).toNat = 0 := by omega
    rw [h0]
    simp
  · rfl

theorem mem_fillerBars_ts {i g : ℤ} {p c x : Bar} (hx : x ∈ fillerBars i g p c) :
    ∃ k : ℕ, k < (⌊c.timestamp - p.timestamp⌋.fdiv i - 1).toNat ∧
      x.timestamp = p.timestamp + (c.timestamp - p.timestamp) *
        (((k + 1 : ℕ) : ℚ) /
          (((⌊c.timestamp - p.timestamp⌋.fdiv i - 1).toNat : ℚ) + 1)) := by
  simp only [fillerBars] at hx
  split at hx
  · obtain ⟨k, hk, rfl⟩ := List.mem_map.mp hx
    exact ⟨k, List.mem_range.mp hk, rfl⟩
  · simp at hx

theorem fillerBars_grid_mem {i g : ℤ} {p c : Bar}
    (hcond : ⌊c.timestamp - p.timestamp⌋ > i ∧ ⌊c.timestamp - p.timestamp⌋ ≤ g)
    {k : ℕ} (hk : k < (⌊c.timestamp - p.timestamp⌋.fdiv i - 1).toNat) :
    ∃ x ∈ fillerBars i g p c,
      x.timestamp = p.timestamp + (c.timestamp - p.timestamp) *
        (((k + 1 : ℕ) : ℚ) /
          (((⌊c.timestamp - p.timestamp⌋.fdiv i - 1).toNat : ℚ) + 1)) := by
  simp only [fillerBars]
  rw [if_pos hcond]
  exact ⟨_, List.mem_map_of_mem _ (List.mem_range.mpr hk), rfl⟩

/-- C3 (amended): on a strictly sorted history, consider a consecutive
pair (p, c) with floored minute delta gap.  Both endpoints survive
unchanged.  When interval < gap ≤ max_gap and the gap spans at least two
whole intervals (gap // interval ≥ 2), at least one synthetic bar lands
strictly between the endpoints; when gap // interval < 2 (in particular
for 1 ≤ interval < gap < 2·interval) none does.  Every bar strictly
between the endpoints is synthetic, flat at the close of the left
endpoint with zero volume, and the between-bars are evenly time-spaced:
their timestamps are exactly points of the uniform grid
p + Δ·(k+1)/(m+1) with m = gap // interval − 1 steps (each grid point is
realised, and nothing between the endpoints lies off the grid).  A pair
whose delta exceeds the cap receives nothing. -/
theorem fill_gaps_spec_amended (interval max_gap : ℤ) (l₁ l₂ : List Bar) (p c : Bar)
    (hsorted : List.Pairwise barLT (l₁ ++ p :: c :: l₂)) :
    (p ∈ fill_missing (l₁ ++ p :: c :: l₂) interval max_gap ∧
      c ∈ fill_missing (l₁ ++ p :: c :: l₂) interval max_gap) ∧
    (interval < ⌊c.timestamp - p.timestamp⌋ → ⌊c.timestamp - p.timestamp⌋ ≤ max_gap →
      2 ≤ ⌊c.timestamp - p.timestamp⌋.fdiv interval →
      ∃ f ∈ fill_missing (l₁ ++ p :: c :: l₂) interval max_gap,
        p.timestamp < f.timestamp ∧ f.timestamp < c.timestamp) ∧
    (∀ f ∈ fill_missing (l₁ ++ p :: c :: l₂) interval max_gap,
      p.timestamp < f.timestamp → f.timestamp < c.timestamp →
      f.open_ = p.close ∧ f.high = p.close ∧ f.low = p.close ∧ f.close = p.close ∧
        f.volume = 0) ∧
    (∀ f ∈ fill_missing (l₁ ++ p :: c :: l₂) interval max_gap,
      p.timestamp < f.timestamp → f.timestamp < c.timestamp →
      ∃ k : ℕ, k < (⌊c.timestamp - p.timestamp⌋.fdiv interval - 1).toNat ∧
        f.timestamp = p.timestamp + (c.timestamp - p.timestamp) *
          (((k + 1 : ℕ) : ℚ) /
            (((⌊c.timestamp - p.timestamp⌋.fdiv interval - 1).toNat : ℚ) + 1))) ∧
    (interval < ⌊c.timestamp - p.timestamp⌋ → ⌊c.timestamp - p.timestamp⌋ ≤ max_gap →
      ∀ k : ℕ, k < (⌊c.timestamp - p.timestamp⌋.fdiv interval - 1).toNat →
      ∃ f ∈ fill_missing (l₁ ++ p :: c :: l₂) interval max_gap,
        p.timestamp < f.timestamp ∧ f.timestamp < c.timestamp ∧
        f.timestamp = p.timestamp + (c.timestamp - p.timestamp) *
          (((k + 1 : ℕ) : ℚ) /
            (((⌊c.timestamp - p.timestamp⌋.fdiv interval - 1).toNat : ℚ) + 1))) ∧
    (⌊c.timestamp - p.timestamp⌋.fdiv interval < 2 →
      ∀ f ∈ fill_missing (l₁ ++ p :: c :: l₂) interval max_gap,
        ¬(p.timestamp < f.timestamp ∧ f.timestamp < c.timestamp)) ∧
    (1 ≤ interval → interval < ⌊c.timestamp - p.timestamp⌋ →
      ⌊c.timestamp - p.timestamp⌋ < 2 * interval →
      ∀ f ∈ fill_missing (l₁ ++ p :: c :: l₂) interval max_gap,
        ¬(p.timestamp < f.timestamp ∧ f.timestamp < c.timestamp)) ∧
    (max_gap < ⌊c.timestamp - p.timestamp⌋ →
      ∀ f ∈ fill_missing (l₁ ++ p :: c :: l₂) interval max_gap,
        ¬(p.timestamp < f.timestamp ∧ f.timestamp < c.timestamp)) := by
  have hadj := mem_adjPairs_append l₁ p c l₂
  have hpc : p.timestamp < c.timestamp := adjPairs_rel hsorted (p, c) hadj
  refine ⟨⟨subset_fill_missing hsorted p (by simp), subset_fill_missing hsorted c (by simp)⟩,
    ?_, ?_, ?_, ?_, ?_, ?_, ?_⟩
  · intro hgt hle h2
    have hne : fillerBars interval max_gap p c ≠ [] := by
      simp only [fillerBars]
      rw [if_pos ⟨hgt, hle⟩]
      simp only [ne_eq, List.map_eq_nil, List.range_eq_nil]
      omega
    obtain ⟨f, hf⟩ := List.exists_mem_of_ne_nil _ hne
    exact ⟨f, fillerBars_mem_fill hsorted hadj f hf, fillerBars_between hpc hf⟩
  · intro f hf h1 h2
    have hfB := between_mem_fillerBars hsorted hf h1 h2
    obtain ⟨ho, hh, hl, hcl, hv, -⟩ := mem_fillerBars hfB
    exact ⟨ho, hh, hl, hcl, hv⟩
  · intro f hf h1 h2
    exact mem_fillerBars_ts (between_mem_fillerBars hsorted hf h1 h2)
  · intro hgt hle k hk
    obtain ⟨x, hxF, hxts⟩ := fillerBars_grid_mem ⟨hgt, hle⟩ hk
    exact ⟨x, fillerBars_mem_fill hsorted hadj x hxF,
      (fillerBars_between hpc hxF).1, (fillerBars_between hpc hxF).2, hxts⟩
  · intro hfd f hf hb
    have hfB := between_mem_fillerBars hsorted hf hb.1 hb.2
    rw [fillerBars_eq_nil_of_fdiv_lt hfd] at hfB
    exact absurd hfB (List.not_mem_nil f)
  · intro hi hgt hlt2 f hf hb
    have hfd : ⌊c.timestamp - p.timestamp⌋.fdiv interval < 2 := by
      rw [Int.fdiv_eq_ediv _ (by omega)]
      exact (Int.ediv_lt_iff_lt_mul (by omega)).mpr (by omega)
    have hfB := between_mem_fillerBars hsorted hf hb.1 hb.2
    rw [fillerBars_eq_nil_of_fdiv_lt hfd] at hfB
    exact absurd hfB (List.not_mem_nil f)
  · intro hmax f hf hb
    have hfB := between_mem_fillerBars hsorted hf hb.1 hb.2
    have hnil : fillerBars interval max_gap p c = [] := by
      simp only [fillerBars]
      rw [if_neg (fun hcd => absurd hcd.2 (not_le.mpr hmax))]
    rw [hnil] at hfB
    exact absurd hfB (List.not_mem_nil f)

/-- Witness for the amended gap repair theorem on a 45 minute gap with a
15 minute interval: a synthetic bar exists strictly inside the gap, and
the first grid point p + Δ·1/(m+1) (here minute 15) is realised. -/
theorem fill_gaps_spec_amended_witness :
    (∃ f ∈ fill_missing [(⟨0, 1, 1, 1, 1, 1⟩ : Bar), ⟨45, 2, 2, 2, 2, 2⟩] 15 60,
      (⟨0, 1, 1, 1, 1, 1⟩ : Bar).timestamp < f.timestamp ∧
        f.timestamp < (⟨45, 2, 2, 2, 2, 2⟩ : Bar).timestamp) ∧
    (∃ f ∈ fill_missing [(⟨0, 1, 1, 1, 1, 1⟩ : Bar), ⟨45, 2, 2, 2, 2, 2⟩] 15 60,
      (⟨0, 1, 1, 1, 1, 1⟩ : Bar).timestamp < f.timestamp ∧
      f.timestamp < (⟨45, 2, 2, 2, 2, 2⟩ : Bar).timestamp ∧
      f.timestamp = (⟨0, 1, 1, 1, 1, 1⟩ : Bar).timestamp +
        ((⟨45, 2, 2, 2, 2, 2⟩ : Bar).timestamp - (⟨0, 1, 1, 1, 1, 1⟩ : Bar).timestamp) *
          (((0 + 1 : ℕ) : ℚ) /
            (((⌊(⟨45, 2, 2, 2, 2, 2⟩ : Bar).timestamp -
                  (⟨0, 1, 1, 1, 1, 1⟩ : Bar).timestamp⌋.fdiv 15 - 1).toNat : ℚ) + 1))) := by
  have h := fill_gaps_spec_amended 15 60 [] [] ⟨0, 1, 1, 1, 1, 1⟩ ⟨45, 2, 2, 2, 2, 2⟩
    (List.Pairwise.cons
      (by intro b hb; rw [List.mem_singleton.mp hb]; exact (by decide : (0 : ℚ) < 45))
      (List.pairwise_singleton _ _))
  have h45 : ⌊(⟨45, 2, 2, 2, 2, 2⟩ : Bar).timestamp -
      (⟨0, 1, 1, 1, 1, 1⟩ : Bar).timestamp⌋ = 45 := by norm_num
  constructor
  · exact h.2.1 (by rw [h45]; decide) (by rw [h45]; decide) (by rw [h45]; decide)
  · exact h.2.2.2.2.1 (by rw [h45]; decide) (by rw [h45]; decide) 0 (by rw [h45]; decide)

/-- C3 counterexample: bars 29 minutes apart on a 15 minute expected
interval with a 60 minute cap have a delta exceeding one interval and
within the cap, yet `fill_missing` synthesizes no bar between them
(`missing_steps = 29 // 15 - 1 = 0`). -/
theorem fill_gaps_counterexample :
    (15 : ℚ) < (⟨29, 2, 2, 2, 2, 2⟩ : Bar).timestamp -
        (⟨0, 1, 1, 1, 1, 1⟩ : Bar).timestamp ∧
    (⟨29, 2, 2, 2, 2, 2⟩ : Bar).timestamp - (⟨0, 1, 1, 1, 1, 1⟩ : Bar).timestamp ≤ 60 ∧
    fill_missing [(⟨0, 1, 1, 1, 1, 1⟩ : Bar), ⟨29, 2, 2, 2, 2, 2⟩] 15 60 =
      [⟨0, 1, 1, 1, 1, 1⟩, ⟨29, 2, 2, 2, 2, 2⟩] ∧
    ∀ f ∈ fill_missing [(⟨0, 1, 1, 1, 1, 1⟩ : Bar), ⟨29, 2, 2, 2, 2, 2⟩] 15 60,
      ¬((⟨0, 1, 1, 1, 1, 1⟩ : Bar).timestamp < f.timestamp ∧
        f.timestamp < (⟨29, 2, 2, 2, 2, 2⟩ : Bar).timestamp) := by
  have hpair : List.Pairwise barLT [(⟨0, 1, 1, 1, 1, 1⟩ : Bar), ⟨29, 2, 2, 2, 2, 2⟩] :=
    List.Pairwise.cons
      (by intro b hb; rw [List.mem_singleton.mp hb]; exact (by decide : (0 : ℚ) < 29))
      (List.pairwise_singleton _ _)
  have heq : fill_missing [(⟨0, 1, 1, 1, 1, 1⟩ : Bar), ⟨29, 2, 2, 2, 2, 2⟩] 15 60 =
      [⟨0, 1, 1, 1, 1, 1⟩, ⟨29, 2, 2, 2, 2, 2⟩] := by
    rw [fill_missing_cons hpair]
    unfold fillWalk
    rw [fillerBars_eq_nil_of_floor_lt (by decide) (by norm_num)]
    rfl
  refine ⟨by norm_num, by norm_num, heq, ?_⟩
  intro f hf
  rw [heq] at hf
  rcases List.mem_cons.mp hf with rfl | hf'
  · intro hcontra
    exact absurd hcontra.1 (by norm_num)
  · rw [List.mem_singleton.mp hf']
    intro hcontra
    exact absurd hcontra.2 (by norm_num)

/-! ## Alert engine lemmas -/

theorem alGet_alSet_self {α β : Type} [DecidableEq α] (m : List (α × β)) (k : α) (v : β) :
    alGet (alSet m k v) k = some v := by
  unfold alGet alSet
  by_cases hmem : m.any (fun p => decide (p.1 = k)) = true
  · rw [if_pos hmem, List.find?_map]
    have hpf : ((fun p : α × β => decide (p.1 = k)) ∘
        (fun p : α × β => if p.1 = k then (k, v) else p)) =
        (fun p : α × β => decide (p.1 = k)) := by
      funext p
      by_cases hp : p.1 = k
      · simp only [Function.comp_apply]
        rw [if_pos hp, hp]
      · simp only [Function.comp_apply]
        rw [if_neg hp]
    rw [hpf]
    obtain ⟨p, hpmem, hp⟩ := List.any_eq_true.mp hmem
    cases hfind : m.find? (fun p : α × β => decide (p.1 = k)) with
    | none => exact absurd hp (List.find?_eq_none.mp hfind p hpmem)
    | some q =>
        have hq := List.find?_some hfind
        simp only [decide_eq_true_eq] at hq
        simp [hq]
  · rw [if_neg hmem, List.find?_append]
    have h1 : m.find? (fun p : α × β => decide (p.1 = k)) = none := by
      rw [List.find?_eq_none]
      intro p hpmem hp
      exact hmem (List.any_eq_true.mpr ⟨p, hpmem, hp⟩)
    rw [h1]
    simp

/-- C4: with a positive cooldown, an alerting non-neutral summary and no
prior record for (symbol, direction), two immediate evaluations with
identical arguments yield SEND and then either SUPPRESS_COOLDOWN or
SEND_STRENGTHENED, never a second SEND. -/
theorem alert_engine_no_double_send (e : AlertEngine) (st : AlertState) (symbol : String)
    (summary : SignalSummary) (results : List IndicatorResult) (now : ℚ)
    (hcd : 0 < e.cooldown_minutes)
    (halert : summary.should_alert = true)
    (hdir : summary.strongest_signal ≠ SignalDirection.neutral)
    (hfresh : alGet st (symbol, summary.strongest_signal) = none) :
    (e.decide st symbol summary results now).1.action = AlertAction.send ∧
    ((e.decide (e.decide st symbol summary results now).2 symbol summary results now).1.action =
        AlertAction.suppress_cooldown ∨
     (e.decide (e.decide st symbol summary results now).2 symbol summary results now).1.action =
        AlertAction.send_strengthened) := by
  have hcond : ¬(summary.should_alert = false ∨
      summary.strongest_signal = SignalDirection.neutral) := by
    rintro (h | h)
    · rw [halert] at h
      exact Bool.noConfusion h
    · exact hdir h
  have h1 : e.decide st symbol summary results now =
      (⟨.send, true, "accepted", symbol, summary.strongest_signal, summary.total_score,
        none⟩,
       alSet st (symbol, summary.strongest_signal)
         ⟨symbol, summary.strongest_signal, summary.total_score, now,
           alertSignature results summary.strongest_signal⟩) := by
    simp only [AlertEngine.decide]
    rw [if_neg hcond, hfresh]
  have h2 := alGet_alSet_self st (symbol, summary.strongest_signal)
    (⟨symbol, summary.strongest_signal, summary.total_score, now,
      alertSignature results summary.strongest_signal⟩ : AlertRecord)
  have helapsed : now - now < (e.cooldown_minutes : ℚ) := by
    rw [sub_self]
    exact_mod_cast hcd
  refine ⟨by rw [h1], ?_⟩
  rw [h1]
  simp only [AlertEngine.decide]
  rw [if_neg hcond, h2]
  dsimp only
  rw [if_pos helapsed]
  by_cases hst : summary.total_score + e.strengthened_delta ≤ summary.total_score
  · rw [if_pos hst]
    exact Or.inr rfl
  · rw [if_neg hst]
    exact Or.inl rfl

/-- Witness for the double-send suppression theorem on a fresh engine
with a concrete bullish summary. -/
theorem alert_engine_no_double_send_witness :
    (AlertEngine.decide ⟨120, 3⟩ [] "BTC"
        ⟨5, SignalDirection.bullish, 2, 0, 0, true, true, 1⟩ [] 0).1.action =
      AlertAction.send ∧
    ((AlertEngine.decide ⟨120, 3⟩
        (AlertEngine.decide ⟨120, 3⟩ [] "BTC"
          ⟨5, SignalDirection.bullish, 2, 0, 0, true, true, 1⟩ [] 0).2 "BTC"
        ⟨5, SignalDirection.bullish, 2, 0, 0, true, true, 1⟩ [] 0).1.action =
        AlertAction.suppress_cooldown ∨
     (AlertEngine.decide ⟨120, 3⟩
        (AlertEngine.decide ⟨120, 3⟩ [] "BTC"
          ⟨5, SignalDirection.bullish, 2, 0, 0, true, true, 1⟩ [] 0).2 "BTC"
        ⟨5, SignalDirection.bullish, 2, 0, 0, true, true, 1⟩ [] 0).1.action =
        AlertAction.send_strengthened) :=
  alert_engine_no_double_send ⟨120, 3⟩ [] "BTC"
    ⟨5, SignalDirection.bullish, 2, 0, 0, true, true, 1⟩ [] 0 (by decide) rfl
    (by decide) rfl

/-- C5: a suppressed outcome leaves the per-(symbol, direction) record
map untouched; a SEND or SEND_STRENGTHENED outcome writes exactly the
new record for the evaluated key. -/
theorem alert_engine_frame (e : AlertEngine) (st : AlertState) (symbol : String)
    (summary : SignalSummary) (results : List IndicatorResult) (now : ℚ) :
    ((e.decide st symbol summary results now).1.action = AlertAction.suppress_no_signal ∨
     (e.decide st symbol summary results now).1.action = AlertAction.suppress_cooldown ∨
     (e.decide st symbol summary results now).1.action = AlertAction.suppress_duplicate →
      (e.decide st symbol summary results now).2 = st) ∧
    ((e.decide st symbol summary results now).1.action = AlertAction.send ∨
     (e.decide st symbol summary results now).1.action = AlertAction.send_strengthened →
      (e.decide st symbol summary results now).2 =
        alSet st (symbol, summary.strongest_signal)
          ⟨symbol, summary.strongest_signal, summary.total_score, now,
            alertSignature results summary.strongest_signal⟩) := by
  simp only [AlertEngine.decide]
  split
  · exact ⟨fun _ => rfl, fun h => by rcases h with h | h <;> simp at h⟩
  · split
    · split
      · split
        · exact ⟨fun h => by rcases h with h | h | h <;> simp at h, fun _ => rfl⟩
        · exact ⟨fun _ => rfl, fun h => by rcases h with h | h <;> simp at h⟩
      · split
        · exact ⟨fun _ => rfl, fun h => by rcases h with h | h <;> simp at h⟩
        · exact ⟨fun h => by rcases h with h | h | h <;> simp at h, fun _ => rfl⟩
    · exact ⟨fun h => by rcases h with h | h | h <;> simp at h, fun _ => rfl⟩

/-- Witness for the frame theorem: a suppressed evaluation (threshold
unmet) on a concrete nonempty state leaves the state unchanged. -/
theorem alert_engine_frame_witness :
    (AlertEngine.decide ⟨120, 3⟩
        [(("BTC", SignalDirection.bullish), ⟨"BTC", SignalDirection.bullish, 4, 0, "rsi"⟩)]
        "BTC" ⟨1, SignalDirection.bullish, 1, 0, 0, false, false, 0⟩ [] 5).2 =
      [(("BTC", SignalDirection.bullish), ⟨"BTC", SignalDirection.bullish, 4, 0, "rsi"⟩)] :=
  (alert_engine_frame ⟨120, 3⟩
    [(("BTC", SignalDirection.bullish), ⟨"BTC", SignalDirection.bullish, 4, 0, "rsi"⟩)]
    "BTC" ⟨1, SignalDirection.bullish, 1, 0, 0, false, false, 0⟩ [] 5).1 (Or.inl rfl)

/-! ## Augmentation gate lemmas -/

theorem consume_sym_count (st : LimiterState) (symbol : String) (now : ℚ) :
    (alGet (AIUsageLimiter.consume st symbol now).sym (symbol, dayOf now)).getD 0 =
      (alGet st.sym (symbol, dayOf now)).getD 0 + 1 := by
  unfold AIUsageLimiter.consume
  dsimp only
  rw [alGet_alSet_self]
  rfl

theorem consume_glob_count (st : LimiterState) (symbol : String) (now : ℚ) :
    (alGet (AIUsageLimiter.consume st symbol now).glob (dayOf now)).getD 0 =
      (alGet st.glob (dayOf now)).getD 0 + 1 := by
  unfold AIUsageLimiter.consume
  dsimp only
  rw [alGet_alSet_self]
  rfl

/-- C6: when the decision says to notify, the AI flag is set, the
limiter allows the call, and the parsed confidence is in range, the
gate produces a called invocation and consumes exactly one unit on both
the per-(symbol, day) and global day counters; when either cap is
reached, the gate returns a not-called invocation with the limiter
reason and leaves the counters untouched. -/
theorem maybe_call_spec (provider : AIPrompt → AIPayload) (providerName : String)
    (lim : AIUsageLimiter) (st : LimiterState) (symbol timeframe : String)
    (summary : SignalSummary) (results : List IndicatorResult)
    (decision : AlertDecision) (now : ℚ)
    (hsend : decision.should_send = true) (hai : summary.should_call_ai = true) :
    ((lim.allow st symbol now).1 = true →
      0 ≤ (provider (build_prompt symbol timeframe summary results)).confidence →
      (provider (build_prompt symbol timeframe summary results)).confidence ≤ 100 →
      maybe_call provider providerName lim st symbol timeframe summary results decision now =
        (.ok ⟨true, "ok",
          some ⟨(provider (build_prompt symbol timeframe summary results)).regime,
                (provider (build_prompt symbol timeframe summary results)).confidence,
                (provider (build_prompt symbol timeframe summary results)).summary,
                (provider (build_prompt symbol timeframe summary results)).risks.take 3,
                providerName⟩⟩,
          AIUsageLimiter.consume st symbol now) ∧
      (alGet (AIUsageLimiter.consume st symbol now).sym (symbol, dayOf now)).getD 0 =
        (alGet st.sym (symbol, dayOf now)).getD 0 + 1 ∧
      (alGet (AIUsageLimiter.consume st symbol now).glob (dayOf now)).getD 0 =
        (alGet st.glob (dayOf now)).getD 0 + 1) ∧
    ((lim.allow st symbol now).1 = false →
      maybe_call provider providerName lim st symbol timeframe summary results decision now =
        (.ok ⟨false, (lim.allow st symbol now).2, none⟩, st)) := by
  constructor
  · intro hallow h0 h100
    refine ⟨?_, consume_sym_count st symbol now, consume_glob_count st symbol now⟩
    simp only [maybe_call]
    rw [if_neg (by simp [hsend]), if_neg (by simp [hai]), if_neg (by simp [hallow]),
      if_neg (by omega)]
  · intro hallow
    simp only [maybe_call]
    rw [if_neg (by simp [hsend]), if_neg (by simp [hai]), if_pos hallow]

/-- Witness for the augmentation gate theorem: fresh limiter state, a
sending decision and an in-range stub payload. -/
theorem maybe_call_spec_witness :
    maybe_call (fun _ => ⟨"reversal_watch", 58, "summary", ["r1", "r2", "r3", "r4"]⟩)
        "rule_based" ⟨3, 20⟩ ⟨[], []⟩ "BTC" "15m"
        ⟨5, SignalDirection.bullish, 2, 0, 0, true, true, 1⟩ []
        ⟨AlertAction.send, true, "accepted", "BTC", SignalDirection.bullish, 5, none⟩ 0 =
      (.ok ⟨true, "ok",
        some ⟨"reversal_watch", 58, "summary", ["r1", "r2", "r3"], "rule_based"⟩⟩,
        AIUsageLimiter.consume ⟨[], []⟩ "BTC" 0) ∧
    (alGet (AIUsageLimiter.consume (⟨[], []⟩ : LimiterState) "BTC" 0).sym
        ("BTC", dayOf 0)).getD 0 =
      (alGet ([] : List ((String × ℤ) × ℤ)) ("BTC", dayOf 0)).getD 0 + 1 ∧
    (alGet (AIUsageLimiter.consume (⟨[], []⟩ : LimiterState) "BTC" 0).glob
        (dayOf 0)).getD 0 =
      (alGet ([] : List (ℤ × ℤ)) (dayOf 0)).getD 0 + 1 :=
  (maybe_call_spec (fun _ => ⟨"reversal_watch", 58, "summary", ["r1", "r2", "r3", "r4"]⟩)
      "rule_based" ⟨3, 20⟩ ⟨[], []⟩ "BTC" "15m"
      ⟨5, SignalDirection.bullish, 2, 0, 0, true, true, 1⟩ []
      ⟨AlertAction.send, true, "accepted", "BTC", SignalDirection.bullish, 5, none⟩ 0
      rfl rfl).1 rfl (by decide) (by decide)

/-- C7: an out-of-range parsed confidence makes the gate fail with an
error (no clamping, no called result) and leaves the limiter state, and
with it both counters, exactly as before the call. -/
theorem maybe_call_out_of_range (provider : AIPrompt → AIPayload) (providerName : String)
    (lim : AIUsageLimiter) (st : LimiterState) (symbol timeframe : String)
    (summary : SignalSummary) (results : List IndicatorResult)
    (decision : AlertDecision) (now : ℚ)
    (hsend : decision.should_send = true) (hai : summary.should_call_ai = true)
    (hallow : (lim.allow st symbol now).1 = true)
    (hconf : (provider (build_prompt symbol timeframe summary results)).confidence < 0 ∨
      (provider (build_prompt symbol timeframe summary results)).confidence > 100) :
    maybe_call provider providerName lim st symbol timeframe summary results decision now =
      (.error "confidence out of range", st) := by
  simp only [maybe_call]
  rw [if_neg (by simp [hsend]), if_neg (by simp [hai]), if_neg (by simp [hallow]),
    if_pos hconf]

/-- Witness for the out-of-range confidence theorem, with a stub payload
carrying confidence 150. -/
theorem maybe_call_out_of_range_witness :
    maybe_call (fun _ => ⟨"regime", 150, "summary", []⟩) "rule_based" ⟨3, 20⟩
        ⟨[], []⟩ "BTC" "15m" ⟨5, SignalDirection.bullish, 2, 0, 0, true, true, 1⟩ []
        ⟨AlertAction.send, true, "accepted", "BTC", SignalDirection.bullish, 5, none⟩ 0 =
      (.error "confidence out of range", (⟨[], []⟩ : LimiterState)) :=
  maybe_call_out_of_range (fun _ => ⟨"regime", 150, "summary", []⟩) "rule_based" ⟨3, 20⟩
    ⟨[], []⟩ "BTC" "15m" ⟨5, SignalDirection.bullish, 2, 0, 0, true, true, 1⟩ []
    ⟨AlertAction.send, true, "accepted", "BTC", SignalDirection.bullish, 5, none⟩ 0
    rfl rfl rfl (Or.inr (by decide))

/-! ## Divergence detector theorems -/

/-- C8: on price series [10,8,9,7,8,9] against indicator series
[100,80,85,90,91,92] with pivot window 1, detection reports a found
bullish divergence (price lower low at indices 1 and 3 with indicator
higher low, bullish checked first). -/
theorem divergence_concrete :
    ∃ s, detect 1 [10, 8, 9, 7, 8, 9] [100, 80, 85, 90, 91, 92] Option.none = .ok s ∧
      s.found = true ∧ s.kind = DivergenceType.bullish :=
  ⟨⟨true, DivergenceType.bullish, "price LL + indicator HL",
     some (⟨1, 8, Option.none⟩, ⟨3, 7, Option.none⟩),
     some (⟨1, 80, Option.none⟩, ⟨3, 90, Option.none⟩)⟩, rfl, rfl, rfl⟩

/-- C9: equal-length series with fewer than 2w+3 points give a
no-divergence result carrying the insufficient data evidence, not an
error. -/
theorem divergence_short_input (w : ℕ) (prices indicators : List ℚ)
    (timestamps : Option (List ℚ))
    (hlen : prices.length = indicators.length) (hshort : prices.length < 2 * w + 3) :
    detect w prices indicators timestamps =
      .ok ⟨false, DivergenceType.none, "not enough data", Option.none, Option.none⟩ := by
  unfold detect
  rw [if_neg (by omega), if_pos hshort]

/-- Witness for the short-input theorem on two-point series with pivot
window 1. -/
theorem divergence_short_input_witness :
    detect 1 [(1 : ℚ), 2] [(3 : ℚ), 4] Option.none =
      .ok ⟨false, DivergenceType.none, "not enough data", Option.none, Option.none⟩ :=
  divergence_short_input 1 [1, 2] [3, 4] Option.none rfl (by decide)

/-! ## Backtest simulator theorems -/

theorem mapM_option_length {α β : Type} (f : α → Option β) :
    ∀ (l : List α) (l' : List β), l.mapM f = some l' → l'.length = l.length := by
  intro l
  induction l with
  | nil =>
      intro l' h
      rw [List.mapM_nil] at h
      cases h
      rfl
  | cons a l ih =>
      intro l' h
      rw [List.mapM_cons] at h
      cases hfa : f a with
      | none => rw [hfa] at h; simp at h
      | some b =>
          rw [hfa] at h
          cases hrest : l.mapM f with
          | none => rw [hrest] at h; simp at h
          | some bs =>
              rw [hrest] at h
              simp at h
              subst h
              simp [ih bs hrest]

/-- C10: whenever the simulator run produces an output, the report
precision lies in [0,1], the signal count equals the length of the
returned signal list, and an empty signal list yields the all-zero
report with no average recovery time. -/
theorem backtest_report_spec (cfg : BacktestConfig) (signals : List BacktestSignal)
    (bars : List Bar)
    (out : List BacktestSignal × List BacktestTradeResult × BacktestReport)
    (h : backtest_run cfg signals bars = some out) :
    0 ≤ out.2.2.precision ∧ out.2.2.precision ≤ 1 ∧
    out.2.2.signal_count = out.1.length ∧
    (out.1 = [] → out.2.2 = ⟨0, 0, 0, 0, 0, 0, Option.none⟩) := by
  unfold backtest_run at h
  cases hm : signals.mapM (fun s => evaluate_signal cfg s bars) with
  | none =>
      rw [hm] at h
      exact absurd h (by simp)
  | some results =>
      rw [hm] at h
      simp only [Option.some.injEq] at h
      have hlen := mapM_option_length _ signals results hm
      rw [← h]
      refine ⟨?_, ?_, ?_, ?_⟩
      · cases results with
        | nil => exact le_refl _
        | cons r rs =>
            show (0 : ℚ) ≤ (build_report cfg (r :: rs)).precision
            have hpr : (build_report cfg (r :: rs)).precision =
                ((((r :: rs).filter (fun x => x.hit_precision_target)).length : ℕ) : ℚ) /
                  (((r :: rs).length : ℕ) : ℚ) := rfl
            rw [hpr]
            positivity
      · cases results with
        | nil => exact zero_le_one
        | cons r rs =>
            show (build_report cfg (r :: rs)).precision ≤ (1 : ℚ)
            have hpr : (build_report cfg (r :: rs)).precision =
                ((((r :: rs).filter (fun x => x.hit_precision_target)).length : ℕ) : ℚ) /
                  (((r :: rs).length : ℕ) : ℚ) := rfl
            rw [hpr, div_le_one (by exact_mod_cast Nat.succ_pos rs.length)]
            exact_mod_cast List.length_filter_le _ (r :: rs)
      · show (build_report cfg results).signal_count = signals.length
        rw [← hlen]
        cases results with
        | nil => rfl
        | cons r rs => rfl
      · intro h1
        show build_report cfg results = _
        have : results.length = 0 := by
          rw [hlen]
          simp [show signals = [] from h1]
        rw [List.length_eq_zero.mp this]
        rfl

/-- Witness for the report theorem on an empty signal list. -/
theorem backtest_report_spec_witness :
    0 ≤ (([], [], (⟨0, 0, 0, 0, 0, 0, Option.none⟩ : BacktestReport)) :
        List BacktestSignal × List BacktestTradeResult × BacktestReport).2.2.precision ∧
    (([], [], (⟨0, 0, 0, 0, 0, 0, Option.none⟩ : BacktestReport)) :
        List BacktestSignal × List BacktestTradeResult × BacktestReport).2.2.precision ≤ 1 ∧
    (([], [], (⟨0, 0, 0, 0, 0, 0, Option.none⟩ : BacktestReport)) :
        List BacktestSignal × List BacktestTradeResult × BacktestReport).2.2.signal_count =
      (([], [], (⟨0, 0, 0, 0, 0, 0, Option.none⟩ : BacktestReport)) :
        List BacktestSignal × List BacktestTradeResult × BacktestReport).1.length ∧
    ((([], [], (⟨0, 0, 0, 0, 0, 0, Option.none⟩ : BacktestReport)) :
        List BacktestSignal × List BacktestTradeResult × BacktestReport).1 = [] →
      (([], [], (⟨0, 0, 0, 0, 0, 0, Option.none⟩ : BacktestReport)) :
        List BacktestSignal × List BacktestTradeResult × BacktestReport).2.2 =
        ⟨0, 0, 0, 0, 0, 0, Option.none⟩) :=
  backtest_report_spec ⟨8, 3, 3, 130⟩ [] []
    ([], [], ⟨0, 0, 0, 0, 0, 0, Option.none⟩) rfl
